import Mathlib

/-!
Verification development for the gem-proxy load-balancing core.

This file gives a shallow embedding of the repository's load balancer
(`src/load_balancer/unified_key_manager.rs`) and weight-audit subsystem
(`src/load_balancer/audit.rs`) and proves the specification's testable
properties about them.

Modelling conventions:
* Rust `u32`/`u64` counters are embedded as `Nat`, the signed scheduling
  weights (`i32`) as `Int`; none of the verified properties exercise
  fixed-width overflow.
* Wall-clock reads (`Utc::now()`, `SystemTime::now()`) are threaded through
  the embedded operations as explicit `now` (seconds) and `nano`
  (nanoseconds, used only for id generation) parameters.
* `HashMap<String, String>` / `HashMap<String, u32>` values are embedded as
  association lists; the claims under study do not depend on hashing order.
* The async `RwLock` wrappers serialize all mutation in the source; the
  embedding is the corresponding sequential state-passing program.
-/

namespace GemProxy

/-- Runtime state of a key (`KeyRuntimeState` in `unified_key_manager.rs`);
`last_reset` is a Unix timestamp in seconds. -/
structure KeyRuntimeState where
  current_requests : Nat
  last_reset : Int
  is_active : Bool
  failure_count : Nat
deriving Repr, DecidableEq

/-- Scheduling state of a key (`KeySchedulingState`). -/
structure KeySchedulingState where
  current_weight : Int
  effective_weight : Int
deriving Repr, DecidableEq

/-- `UnifiedApiKey` from `unified_key_manager.rs`. -/
structure UnifiedApiKey where
  id : String
  key : String
  weight : Nat
  max_requests_per_minute : Nat
  runtime_state : KeyRuntimeState
  scheduling_state : KeySchedulingState
deriving Repr, DecidableEq

/-- The legacy `ApiKey` struct from `key_manager.rs` (used by
`UnifiedKeyManager::new` input and `to_api_key` output). -/
structure ApiKey where
  id : String
  key : String
  weight : Nat
  max_requests_per_minute : Nat
  current_requests : Nat
  last_reset : Int
  is_active : Bool
  failure_count : Nat
deriving Repr, DecidableEq

/-- `UnifiedApiKey::from_api_key`. -/
def UnifiedApiKey.from_api_key (a : ApiKey) : UnifiedApiKey :=
  { id := a.id
    key := a.key
    weight := a.weight
    max_requests_per_minute := a.max_requests_per_minute
    runtime_state :=
      { current_requests := a.current_requests
        last_reset := a.last_reset
        is_active := a.is_active
        failure_count := a.failure_count }
    scheduling_state :=
      { current_weight := 0
        effective_weight := (a.weight : Int) } }

/-- `UnifiedApiKey::to_api_key`. -/
def UnifiedApiKey.to_api_key (k : UnifiedApiKey) : ApiKey :=
  { id := k.id
    key := k.key
    weight := k.weight
    max_requests_per_minute := k.max_requests_per_minute
    current_requests := k.runtime_state.current_requests
    last_reset := k.runtime_state.last_reset
    is_active := k.runtime_state.is_active
    failure_count := k.runtime_state.failure_count }

/-- `UnifiedApiKey::is_available`. -/
def UnifiedApiKey.is_available (k : UnifiedApiKey) : Bool :=
  k.runtime_state.is_active
    && decide (k.runtime_state.failure_count < 3)
    && decide (k.runtime_state.current_requests < k.max_requests_per_minute)

/-- `UnifiedApiKey::should_reset_rate_limit` (elapsed seconds since
`last_reset` at least 60). -/
def UnifiedApiKey.should_reset_rate_limit (now : Int) (k : UnifiedApiKey) : Bool :=
  decide (60 ≤ now - k.runtime_state.last_reset)

/-- `UnifiedApiKey::reset_rate_limit`. -/
def UnifiedApiKey.reset_rate_limit (now : Int) (k : UnifiedApiKey) : UnifiedApiKey :=
  { k with runtime_state :=
      { k.runtime_state with current_requests := 0, last_reset := now } }

/-- `UnifiedApiKey::increment_requests`. -/
def UnifiedApiKey.increment_requests (k : UnifiedApiKey) : UnifiedApiKey :=
  { k with runtime_state :=
      { k.runtime_state with
          current_requests := k.runtime_state.current_requests + 1 } }

/-- `UnifiedApiKey::mark_failed`: bump the failure count, deactivate at
threshold 3, and lower the effective weight by one (floored at 0). -/
def UnifiedApiKey.mark_failed (k : UnifiedApiKey) : UnifiedApiKey :=
  let fc := k.runtime_state.failure_count + 1
  { k with
    runtime_state :=
      { k.runtime_state with
          failure_count := fc
          is_active := if 3 ≤ fc then false else k.runtime_state.is_active }
    scheduling_state :=
      { k.scheduling_state with
          effective_weight := max 0 (k.scheduling_state.effective_weight - 1) } }

/-- `UnifiedApiKey::mark_success`: clear failures, reactivate, restore the
effective weight to the configured weight. -/
def UnifiedApiKey.mark_success (k : UnifiedApiKey) : UnifiedApiKey :=
  { k with
    runtime_state :=
      { k.runtime_state with failure_count := 0, is_active := true }
    scheduling_state :=
      { k.scheduling_state with effective_weight := (k.weight : Int) } }

/-- `UnifiedApiKey::update_weight`: set both `weight` and
`effective_weight` to the new value. -/
def UnifiedApiKey.update_weight (w : Nat) (k : UnifiedApiKey) : UnifiedApiKey :=
  { k with
    weight := w
    scheduling_state := { k.scheduling_state with effective_weight := (w : Int) } }

/-- `UnifiedKeyManager`: the key list together with the cached total
effective weight. -/
structure UnifiedKeyManager where
  keys : List UnifiedApiKey
  total_weight : Int
deriving Repr, DecidableEq

/-- Sum of effective weights over all keys (the quantity cached in
`total_weight`). -/
def effSum (ks : List UnifiedApiKey) : Int :=
  (ks.map (fun k => k.scheduling_state.effective_weight)).sum

/-- `UnifiedKeyManager::new`. -/
def UnifiedKeyManager.new (keys : List ApiKey) : UnifiedKeyManager :=
  let unified := keys.map UnifiedApiKey.from_api_key
  { keys := unified, total_weight := effSum unified }

/-- One iteration of the `update_keys_availability` loop body on a single
key: reset the rate-limit window if due, then optimistically reactivate an
inactive key whose failure count is below threshold after a 5 minute
cool-down.  Returns the updated key and whether the total weight changed. -/
def refreshKey (now : Int) (k : UnifiedApiKey) : UnifiedApiKey × Bool :=
  let k1 := if k.should_reset_rate_limit now then k.reset_rate_limit now else k
  if (!k1.runtime_state.is_active && decide (k1.runtime_state.failure_count < 3))
      && decide (5 ≤ Int.tdiv (now - k1.runtime_state.last_reset) 60) then
    (k1.mark_success, true)
  else
    (k1, false)

/-- `UnifiedKeyManager::update_keys_availability`: refresh every key and
report whether any reactivation changed the total weight. -/
def update_keys_availability (now : Int) (keys : List UnifiedApiKey) :
    List UnifiedApiKey × Bool :=
  let updated := keys.map (refreshKey now)
  (updated.map Prod.fst, updated.any Prod.snd)

/-- Default key used to totalize list indexing (indices are always in
bounds where it is used). -/
def dfltKey : UnifiedApiKey :=
  { id := ""
    key := ""
    weight := 0
    max_requests_per_minute := 0
    runtime_state :=
      { current_requests := 0, last_reset := 0, is_active := false, failure_count := 0 }
    scheduling_state := { current_weight := 0, effective_weight := 0 } }

/-- `keys[i]` on the key vector. -/
def getKey (ks : List UnifiedApiKey) (i : Nat) : UnifiedApiKey :=
  ks.getD i dfltKey

/-- Indices of the available keys, in pool order
(`keys.iter().enumerate().filter(is_available).map(i)`). -/
def availableIndices (ks : List UnifiedApiKey) : List Nat :=
  (ks.enum.filter (fun p => p.2.is_available)).map Prod.fst

/-- Rust `Iterator::max_by_key` over a list of indices: the last index
attaining the maximum key value is returned. -/
def maxByLast (f : Nat → Int) : List Nat → Option Nat
  | [] => none
  | i :: is => some (is.foldl (fun a x => if f x < f a then a else x) i)

/-- Add a key's effective weight to its current weight (step 1 of the
smooth-WRR selection, applied to each available key). -/
def addCurrent (k : UnifiedApiKey) : UnifiedApiKey :=
  { k with scheduling_state :=
      { k.scheduling_state with
          current_weight :=
            k.scheduling_state.current_weight + k.scheduling_state.effective_weight } }

/-- Replace a key's current weight. -/
def setCurrent (k : UnifiedApiKey) (c : Int) : UnifiedApiKey :=
  { k with scheduling_state := { k.scheduling_state with current_weight := c } }

/-- The `total_effective_weight` computed inside
`select_key_with_smooth_wrr`: sum of effective weights over the available
indices. -/
def totAvailable (ks : List UnifiedApiKey) : Int :=
  ((availableIndices ks).map
    (fun i => (getKey ks i).scheduling_state.effective_weight)).sum

/-- The `+=` loop of `select_key_with_smooth_wrr` over the available
indices: since the index set is exactly the per-key `is_available`
predicate, the loop is the per-element conditional bump. -/
def bumpAvailable (ks : List UnifiedApiKey) : List UnifiedApiKey :=
  ks.map (fun k => if k.is_available then addCurrent k else k)

/-- `UnifiedKeyManager::select_key_with_smooth_wrr`.  Returns the selected
pool index paired with the `ApiKey` copy handed to the caller, plus the
updated key vector. -/
def select_key_with_smooth_wrr (ks : List UnifiedApiKey) :
    Option (Nat × ApiKey) × List UnifiedApiKey :=
  let avail := availableIndices ks
  if avail.isEmpty then (none, ks)
  else if totAvailable ks ≤ 0 then (none, ks)
  else
    let ks1 := bumpAvailable ks
    match maxByLast (fun i => (getKey ks1 i).scheduling_state.current_weight) avail with
    | none => (none, ks1)
    | some s =>
        let ks2 := ks1.set s
          (setCurrent (getKey ks1 s)
            ((getKey ks1 s).scheduling_state.current_weight - totAvailable ks))
        (some (s, (getKey ks2 s).to_api_key), ks2)

/-- Update the first list element satisfying `p` (Rust
`iter_mut().find(...)` followed by a mutation). -/
def updateFirst {α : Type} (p : α → Bool) (f : α → α) : List α → List α
  | [] => []
  | x :: xs => if p x then f x :: xs else x :: updateFirst p f xs

/-- `UnifiedKeyManager::get_next_key`: refresh availability (recomputing
the cached total weight if a reactivation changed it), run smooth WRR, and
bump the selected key's request counter.  The returned `ApiKey` is the
copy taken before the counter bump, as in the source. -/
def UnifiedKeyManager.get_next_key (now : Int) (m : UnifiedKeyManager) :
    Option ApiKey × UnifiedKeyManager :=
  let refreshed := update_keys_availability now m.keys
  let tw := if refreshed.2 then effSum refreshed.1 else m.total_weight
  match select_key_with_smooth_wrr refreshed.1 with
  | (some (_, api), ks1) =>
      let ks2 := updateFirst (fun k => decide (k.id = api.id))
        UnifiedApiKey.increment_requests ks1
      (some api, { keys := ks2, total_weight := tw })
  | (none, ks1) => (none, { keys := ks1, total_weight := tw })

/-- `UnifiedKeyManager::mark_key_failed`: mark the first key with the given
id failed and recompute the cached total weight if its effective weight
changed. -/
def UnifiedKeyManager.mark_key_failed (key_id : String) (m : UnifiedKeyManager) :
    UnifiedKeyManager :=
  match m.keys.find? (fun k => decide (k.id = key_id)) with
  | none => m
  | some k =>
      let ks' := updateFirst (fun j => decide (j.id = key_id))
        UnifiedApiKey.mark_failed m.keys
      let tw :=
        if k.scheduling_state.effective_weight ≠
            k.mark_failed.scheduling_state.effective_weight then
          effSum ks'
        else m.total_weight
      { keys := ks', total_weight := tw }

/-- `UnifiedKeyManager::mark_key_success`. -/
def UnifiedKeyManager.mark_key_success (key_id : String) (m : UnifiedKeyManager) :
    UnifiedKeyManager :=
  match m.keys.find? (fun k => decide (k.id = key_id)) with
  | none => m
  | some k =>
      let ks' := updateFirst (fun j => decide (j.id = key_id))
        UnifiedApiKey.mark_success m.keys
      let tw :=
        if k.scheduling_state.effective_weight ≠
            k.mark_success.scheduling_state.effective_weight then
          effSum ks'
        else m.total_weight
      { keys := ks', total_weight := tw }

/-- `UnifiedKeyManager::update_key_weight`: reweight the first key with the
given id and recompute the cached total weight in the same step; absent
ids produce an error and leave the state untouched. -/
def UnifiedKeyManager.update_key_weight (key_id : String) (w : Nat)
    (m : UnifiedKeyManager) : Except String Unit × UnifiedKeyManager :=
  match m.keys.find? (fun k => decide (k.id = key_id)) with
  | none => (Except.error ("密钥 " ++ key_id ++ " 不存在"), m)
  | some _ =>
      let ks' := updateFirst (fun j => decide (j.id = key_id))
        (UnifiedApiKey.update_weight w) m.keys
      (Except.ok (), { keys := ks', total_weight := effSum ks' })

/-- Iterated selection: run `select_key_with_smooth_wrr` `n` times,
collecting the selected pool index of each call (`none` when no key was
selected) and the final key vector. -/
def selectRun (ks : List UnifiedApiKey) : Nat → List (Option Nat) × List UnifiedApiKey
  | 0 => ([], ks)
  | n + 1 =>
      let step := select_key_with_smooth_wrr ks
      let rest := selectRun step.2 n
      ((step.1.map Prod.fst) :: rest.1, rest.2)

/-- The successful selections of `n` consecutive calls, as pool indices. -/
def selectTrace (ks : List UnifiedApiKey) (n : Nat) : List Nat :=
  (selectRun ks n).1.filterMap id

/-- Sum of scheduler accumulators (`current_weight`) over the pool. -/
def cwSum (ks : List UnifiedApiKey) : Int :=
  (ks.map (fun k => k.scheduling_state.current_weight)).sum

/-- Projection: current weights of the pool. -/
def cwOf (ks : List UnifiedApiKey) : List Int :=
  ks.map (fun k => k.scheduling_state.current_weight)

/-- Projection: effective weights of the pool. -/
def effOf (ks : List UnifiedApiKey) : List Int :=
  ks.map (fun k => k.scheduling_state.effective_weight)

/-! ### Audit subsystem (`src/load_balancer/audit.rs`) -/

/-- `OperationType` from `audit.rs`. -/
inductive OperationType where
  | Manual
  | Intelligent
  | Batch
  | Rollback
  | Automatic
deriving Repr, DecidableEq

/-- `ChangeSource` from `audit.rs`. -/
inductive ChangeSource where
  | WebUI
  | API
  | ConfigFile
  | Optimizer
  | Monitor
deriving Repr, DecidableEq

/-- `WeightChangeRecord`; `timestamp` is Unix seconds, `metadata` an
association list standing for the `HashMap<String, String>`. -/
structure WeightChangeRecord where
  id : String
  timestamp : Nat
  operator : String
  operation_type : OperationType
  target_key_id : String
  old_weight : Nat
  new_weight : Nat
  reason : String
  source : ChangeSource
  metadata : List (String × String)
deriving Repr, DecidableEq

/-- `WeightSnapshot`; `weights` is the captured key-to-weight map. -/
structure WeightSnapshot where
  snapshot_id : String
  timestamp : Nat
  weights : List (String × Nat)
  description : String
  created_by : String
deriving Repr, DecidableEq

/-- `AuditConfig`. -/
structure AuditConfig where
  retention_days : Nat
  max_records : Nat
  auto_snapshot_interval : Nat
  enable_notifications : Bool
deriving Repr, DecidableEq

/-- `AuditConfig::default`. -/
def AuditConfig.mkDefault : AuditConfig :=
  { retention_days := 30
    max_records := 10000
    auto_snapshot_interval := 3600
    enable_notifications := true }

/-- `AuditQuery`. -/
structure AuditQuery where
  start_time : Option Nat
  end_time : Option Nat
  operator : Option String
  operation_type : Option OperationType
  target_key_id : Option String
  source : Option ChangeSource
  limit : Option Nat
  offset : Option Nat
deriving Repr, DecidableEq

/-- `WeightAuditSystem` state: the two stores plus the configuration. -/
structure WeightAuditSystem where
  change_records : List WeightChangeRecord
  snapshots : List WeightSnapshot
  config : AuditConfig
deriving Repr, DecidableEq

/-- Does `hay` start with `needle`? (character-list helper for Rust
`str::contains`). -/
def charListStarts : List Char → List Char → Bool
  | _, [] => true
  | [], _ :: _ => false
  | a :: as, b :: bs => decide (a = b) && charListStarts as bs

/-- Substring test on character lists (Rust `str::contains`). -/
def charListHasSub (needle : List Char) : List Char → Bool
  | [] => charListStarts [] needle
  | c :: t => charListStarts (c :: t) needle || charListHasSub needle t

/-- Rust `record.operator.contains(query)` for the audit filter. -/
def strContainsSub (hay needle : String) : Bool :=
  charListHasSub needle.data hay.data

/-- `WeightAuditSystem::cleanup_old_records`: drop records at or before the
retention cutoff (`timestamp > cutoff` is kept), then drop the oldest
records beyond `max_records` from the front.  The `u64` cutoff subtraction
is embedded with truncated `Nat` subtraction; the verified properties only
use `now` beyond the retention window, where the two agree. -/
def cleanup_old_records (now : Nat) (cfg : AuditConfig)
    (records : List WeightChangeRecord) : List WeightChangeRecord :=
  let cutoff := now - cfg.retention_days * (24 * 3600)
  let kept := records.filter (fun r => decide (cutoff < r.timestamp))
  if cfg.max_records < kept.length then kept.drop (kept.length - cfg.max_records)
  else kept

/-- The record built by `record_weight_change` (id `rec_{nano}`, timestamp
`now`). -/
def mkChangeRecord (now nano : Nat) (operator : String)
    (operation_type : OperationType) (target_key_id : String)
    (old_weight new_weight : Nat) (reason : String) (source : ChangeSource)
    (metadata : Option (List (String × String))) : WeightChangeRecord :=
  { id := "rec_" ++ toString nano
    timestamp := now
    operator := operator
    operation_type := operation_type
    target_key_id := target_key_id
    old_weight := old_weight
    new_weight := new_weight
    reason := reason
    source := source
    metadata := metadata.getD [] }

/-- `WeightAuditSystem::record_weight_change`: build the record, append
it, prune, and return the id. -/
def record_weight_change (now nano : Nat) (operator : String)
    (operation_type : OperationType) (target_key_id : String)
    (old_weight new_weight : Nat) (reason : String) (source : ChangeSource)
    (metadata : Option (List (String × String))) (sys : WeightAuditSystem) :
    Except String String × WeightAuditSystem :=
  let record := mkChangeRecord now nano operator operation_type target_key_id
    old_weight new_weight reason source metadata
  let records := cleanup_old_records now sys.config (sys.change_records ++ [record])
  (Except.ok ("rec_" ++ toString nano), { sys with change_records := records })

/-- `WeightAuditSystem::create_snapshot`: push the snapshot (id
`snap_{nano}`, timestamp `now`) and evict the oldest beyond 100. -/
def create_snapshot (now nano : Nat) (weights : List (String × Nat))
    (description created_by : String) (sys : WeightAuditSystem) :
    Except String String × WeightAuditSystem :=
  let snapshot_id := "snap_" ++ toString nano
  let snap : WeightSnapshot :=
    { snapshot_id := snapshot_id
      timestamp := now
      weights := weights
      description := description
      created_by := created_by }
  let snaps := sys.snapshots ++ [snap]
  let snaps := if 100 < snaps.length then snaps.eraseIdx 0 else snaps
  (Except.ok snapshot_id, { sys with snapshots := snaps })

/-- `WeightAuditSystem::get_snapshot`. -/
def get_snapshot (snapshot_id : String) (sys : WeightAuditSystem) :
    Option WeightSnapshot :=
  sys.snapshots.find? (fun s => decide (s.snapshot_id = snapshot_id))

/-- The metadata attached to each rollback record. -/
def rollbackMeta (snapshot_id reason : String) : List (String × String) :=
  [("snapshot_id", snapshot_id), ("rollback_reason", reason)]

/-- The `for (key_id, new_weight) in snapshot.weights` loop of
`rollback_to_snapshot`: one `record_weight_change` per snapshot entry.
`old_weight` is the hard-coded placeholder `100` from the source
(`let old_weight = 100; // 占位符，实际应从系统获取`), not a live-pool
lookup.  Successive records draw successive `nano` clock values. -/
def rollbackLoop (now nano : Nat) (operator snapshot_id reason desc : String) :
    List (String × Nat) → WeightAuditSystem → WeightAuditSystem
  | [], sys => sys
  | (key_id, new_weight) :: rest, sys =>
      let old_weight := 100
      let sys' := (record_weight_change now nano operator OperationType.Rollback
        key_id old_weight new_weight ("回滚到快照: " ++ desc) ChangeSource.WebUI
        (some (rollbackMeta snapshot_id reason)) sys).2
      rollbackLoop now (nano + 1) operator snapshot_id reason desc rest sys'

/-- `WeightAuditSystem::rollback_to_snapshot`: look the snapshot up, emit
one Rollback record per captured key, and return the captured weight
map. -/
def rollback_to_snapshot (now nano : Nat) (snapshot_id operator reason : String)
    (sys : WeightAuditSystem) :
    Except String (List (String × Nat)) × WeightAuditSystem :=
  match get_snapshot snapshot_id sys with
  | none => (Except.error ("Snapshot " ++ snapshot_id ++ " not found"), sys)
  | some snap =>
      (Except.ok snap.weights,
        rollbackLoop now nano operator snapshot_id reason snap.description
          snap.weights sys)

/-- The list of records `rollbackLoop` appends (used to state its
effect): one Rollback record per snapshot entry, with consecutive `nano`
ids and the placeholder old weight. -/
def rollbackRecs (now nano : Nat) (operator snapshot_id reason desc : String) :
    List (String × Nat) → List WeightChangeRecord
  | [] => []
  | (key_id, new_weight) :: rest =>
      mkChangeRecord now nano operator OperationType.Rollback key_id 100 new_weight
          ("回滚到快照: " ++ desc) ChangeSource.WebUI (some (rollbackMeta snapshot_id reason))
        :: rollbackRecs now (nano + 1) operator snapshot_id reason desc rest

/-- The filter predicate of `query_audit_records` (each `Some` filter must
pass; `operator` is a substring match). -/
def recordMatches (q : AuditQuery) (r : WeightChangeRecord) : Bool :=
  (match q.start_time with | some t => decide (t ≤ r.timestamp) | none => true)
    && (match q.end_time with | some t => decide (r.timestamp ≤ t) | none => true)
    && (match q.operator with | some op => strContainsSub r.operator op | none => true)
    && (match q.operation_type with | some t => decide (r.operation_type = t) | none => true)
    && (match q.target_key_id with | some t => decide (r.target_key_id = t) | none => true)
    && (match q.source with | some s => decide (r.source = s) | none => true)

/-- Insert a record into a newest-first sorted list, after every record
with a strictly newer timestamp and before every record with an equal or
older one. -/
def insertDesc (r : WeightChangeRecord) : List WeightChangeRecord → List WeightChangeRecord
  | [] => [r]
  | y :: ys =>
      if y.timestamp ≤ r.timestamp then r :: y :: ys else y :: insertDesc r ys

/-- Stable newest-first sort.  Rust's `sort_by` with the comparator
`b.timestamp.cmp(&a.timestamp)` is a stable descending-timestamp sort, and
a stable sort under a total preorder has a unique output, so this
insertion sort computes exactly the list the source produces (equal
timestamps keep their original relative order: an earlier record is
inserted in front of the equal-timestamp records that follow it). -/
def sortByNewest : List WeightChangeRecord → List WeightChangeRecord
  | [] => []
  | r :: rs => insertDesc r (sortByNewest rs)

/-- `WeightAuditSystem::query_audit_records`: filter, stable-sort newest
first, then apply `offset`/`limit` (defaulting to `0` / all). -/
def query_audit_records (q : AuditQuery) (sys : WeightAuditSystem) :
    List WeightChangeRecord :=
  let filtered := sys.change_records.filter (recordMatches q)
  let sorted := sortByNewest filtered
  (sorted.drop (q.offset.getD 0)).take (q.limit.getD sorted.length)

/-! ### The smooth-WRR core as arithmetic on weight vectors

`select_key_with_smooth_wrr`, restricted to a pool in which every key is
available, acts on the vector of `current_weight`s alone.  The following
definitions name that action; the bridge lemmas below prove that the
embedded selection function computes it. -/

/-- The per-call increments: every current weight raised by the matching
effective weight. -/
def wrrD (w c : List Int) : List Int := List.zipWith (· + ·) c w

/-- The index selected by one smooth-WRR call on current weights `c` with
effective weights `w` (maximum raised current weight, last index winning
ties, as `max_by_key` does). -/
def wrrSelIdx (w c : List Int) : Nat :=
  (maxByLast (fun i => (wrrD w c).getD i 0) (List.range c.length)).getD 0

/-- The current-weight vector after one smooth-WRR call: raise everything,
then charge the selected index the full weight total. -/
def wrrNext (w c : List Int) : List Int :=
  let d := wrrD w c
  let s := wrrSelIdx w c
  d.set s (d.getD s 0 - w.sum)

/-- The selection sequence of `n` consecutive smooth-WRR calls. -/
def wrrTrace (w : List Int) : List Int → Nat → List Nat
  | _, 0 => []
  | c, n + 1 => wrrSelIdx w c :: wrrTrace w (wrrNext w c) n

/-- The current-weight vector after `n` smooth-WRR calls. -/
def wrrIter (w : List Int) (c : List Int) : Nat → List Int
  | 0 => c
  | n + 1 => wrrIter w (wrrNext w c) n

/-! ### Reachable manager states -/

/-- Manager states reachable from construction by any interleaving of
selections, failure/success marks, and reweights (the mutating operations
of `UnifiedKeyManager`); the selection steps may observe any clock
value. -/
inductive Reachable : UnifiedKeyManager → Prop where
  | init (keys : List ApiKey) : Reachable (UnifiedKeyManager.new keys)
  | select (now : Int) {m : UnifiedKeyManager} :
      Reachable m → Reachable (m.get_next_key now).2
  | fail (key_id : String) {m : UnifiedKeyManager} :
      Reachable m → Reachable (m.mark_key_failed key_id)
  | success (key_id : String) {m : UnifiedKeyManager} :
      Reachable m → Reachable (m.mark_key_success key_id)
  | reweight (key_id : String) (w : Nat) {m : UnifiedKeyManager} :
      Reachable m → Reachable (m.update_key_weight key_id w).2

/-- Reachability from a pool constructed the way `main.rs` does it: every
initial key active with a zero failure count. -/
inductive ReachableFresh : UnifiedKeyManager → Prop where
  | init (keys : List ApiKey)
      (h : ∀ a ∈ keys, a.is_active = true ∧ a.failure_count = 0) :
      ReachableFresh (UnifiedKeyManager.new keys)
  | select (now : Int) {m : UnifiedKeyManager} :
      ReachableFresh m → ReachableFresh (m.get_next_key now).2
  | fail (key_id : String) {m : UnifiedKeyManager} :
      ReachableFresh m → ReachableFresh (m.mark_key_failed key_id)
  | success (key_id : String) {m : UnifiedKeyManager} :
      ReachableFresh m → ReachableFresh (m.mark_key_success key_id)
  | reweight (key_id : String) (w : Nat) {m : UnifiedKeyManager} :
      ReachableFresh m → ReachableFresh (m.update_key_weight key_id w).2

/-! ### Claim-side predicates and concrete fixtures -/

/-- The smoothness order property claimed by the specification, stated on
a selection trace `tr` over quota vector `w`: the scheduler never selects
the same key at two instants `m1 < m2` while some other key has not yet
reached its per-cycle quota by instant `m2`. -/
def noRepeatBeforeQuota (w : List Int) (tr : List Nat) : Prop :=
  ∀ m1 m2, m1 < m2 → m2 < tr.length → tr.getD m1 0 = tr.getD m2 0 →
    ∀ j, j < w.length → j ≠ tr.getD m1 0 →
      w.getD j 0 ≤ (((tr.take m2).count j : Nat) : Int)

/-- A freshly configured `ApiKey` exactly as `main.rs` builds them from
config: zero usage, active, zero failures. -/
def mkFreshApiKey (id : String) (w maxRpm : Nat) : ApiKey :=
  { id := id
    key := id ++ "-secret"
    weight := w
    max_requests_per_minute := maxRpm
    current_requests := 0
    last_reset := 0
    is_active := true
    failure_count := 0 }

/-- Two-key pool with weights 5 and 1 (smoothness counterexample). -/
def pool51 : List UnifiedApiKey :=
  [mkFreshApiKey "A" 5 1000, mkFreshApiKey "B" 1 1000].map UnifiedApiKey.from_api_key

/-- Three-key pool with weights 0, 1 and 5 (weight-zero counterexample). -/
def poolZ : UnifiedKeyManager :=
  UnifiedKeyManager.new
    [mkFreshApiKey "A" 0 1000, mkFreshApiKey "B" 1 1000, mkFreshApiKey "C" 5 1000]

/-- `poolZ` after four selections followed by three failure marks on the
heavy key `C` (a reachable manager state). -/
def poolZrun : UnifiedKeyManager :=
  let m1 := (poolZ.get_next_key 0).2
  let m2 := (m1.get_next_key 0).2
  let m3 := (m2.get_next_key 0).2
  let m4 := (m3.get_next_key 0).2
  ((m4.mark_key_failed "C").mark_key_failed "C").mark_key_failed "C"

/-- The spec's concrete weight-zero scenario: key `A` with weight 0 and
key `B` with weight 100. -/
def poolAB : List UnifiedApiKey :=
  [mkFreshApiKey "A" 0 1000, mkFreshApiKey "B" 100 1000].map UnifiedApiKey.from_api_key

/-- Two-key pool with weights 1 and 2 (cycle-count witness). -/
def poolW : List UnifiedApiKey :=
  [mkFreshApiKey "A" 1 10, mkFreshApiKey "B" 2 10].map UnifiedApiKey.from_api_key

/-- Two-key manager with weights 100 and 50 (failure-threshold scenario). -/
def pool3 : UnifiedKeyManager :=
  UnifiedKeyManager.new [mkFreshApiKey "A" 100 1000, mkFreshApiKey "B" 50 1000]

/-- `pool3` after marking key `A` failed three times. -/
def pool3f : UnifiedKeyManager :=
  ((pool3.mark_key_failed "A").mark_key_failed "A").mark_key_failed "A"

/-- Default record used to totalize record indexing. -/
def dRec : WeightChangeRecord :=
  { id := ""
    timestamp := 0
    operator := ""
    operation_type := OperationType.Manual
    target_key_id := ""
    old_weight := 0
    new_weight := 0
    reason := ""
    source := ChangeSource.WebUI
    metadata := [] }

/-- A minimal record with the given timestamp and target key. -/
def mkRec (n : Nat) (t : String) : WeightChangeRecord :=
  { dRec with id := "r" ++ toString n, timestamp := n, target_key_id := t }

/-- An empty audit system with the default configuration. -/
def auditSys0 : WeightAuditSystem :=
  { change_records := [], snapshots := [], config := AuditConfig.mkDefault }

/-- One manual change recorded at time 1000: key `k1` went from 100 to
250, so the pool's live weight for `k1` is 250 from then on. -/
def auditSys1 : WeightAuditSystem :=
  (record_weight_change 1000 1 "admin" OperationType.Manual "k1" 100 250 "init"
    ChangeSource.WebUI none auditSys0).2

/-- `auditSys1` with a snapshot capturing `k1 ↦ 70`, taken at time 1000. -/
def auditSys2 : WeightAuditSystem :=
  (create_snapshot 1000 2 [("k1", 70)] "cap" "admin" auditSys1).2

/-- `auditSys2` rolled back to that snapshot, also at time 1000. -/
def auditSys3 : WeightAuditSystem :=
  (rollback_to_snapshot 1000 3 "snap_2" "admin" "revert" auditSys2).2

/-- Ten records for key `k` with timestamps 1..10 (pagination witness). -/
def recs10 : List WeightChangeRecord :=
  (List.range 10).map (fun n => mkRec (n + 1) "k")

/-- Audit system holding `recs10`. -/
def sys7 : WeightAuditSystem :=
  { change_records := recs10, snapshots := [], config := AuditConfig.mkDefault }

/-- The pagination query of the spec's example: target `k`, `limit = 3`,
`offset = 3`. -/
def q7 : AuditQuery :=
  { start_time := none
    end_time := none
    operator := none
    operation_type := none
    target_key_id := some "k"
    source := none
    limit := some 3
    offset := some 3 }

/-! ## List helper lemmas -/

theorem getD_map_of_lt {α β : Type} (f : α → β) (l : List α) (i : Nat)
    (hi : i < l.length) (d : β) (d' : α) :
    (l.map f).getD i d = f (l.getD i d') := by
  induction l generalizing i with
  | nil => simp at hi
  | cons a t ih =>
      cases i with
      | zero => simp
      | succ j => simpa using ih j (by simpa using hi)

theorem sum_set_int (l : List Int) (i : Nat) (hi : i < l.length) (x : Int) :
    (l.set i x).sum = l.sum - l.getD i 0 + x := by
  induction l generalizing i with
  | nil => simp at hi
  | cons a t ih =>
      cases i with
      | zero => simp [List.set]; ring
      | succ j =>
          have := ih j (by simpa using hi)
          simp [List.set, this]; ring

theorem getD_set_self_of_lt {α : Type} (l : List α) (i : Nat) (hi : i < l.length)
    (x : α) (d : α) : (l.set i x).getD i d = x := by
  induction l generalizing i with
  | nil => simp at hi
  | cons a t ih =>
      cases i with
      | zero => simp [List.set]
      | succ j => simpa [List.set] using ih j (by simpa using hi)

theorem getD_set_ne {α : Type} (l : List α) (i j : Nat) (hij : i ≠ j) (x : α)
    (d : α) : (l.set i x).getD j d = l.getD j d := by
  simp [List.getD_eq_getElem?_getD, List.getElem?_set_ne hij]

theorem set_getD_self {α : Type} (l : List α) (i : Nat) (hi : i < l.length)
    (d : α) : l.set i (l.getD i d) = l := by
  induction l generalizing i with
  | nil => simp
  | cons a t ih =>
      cases i with
      | zero => simp [List.set]
      | succ j =>
          simp only [List.set, List.getD_cons_succ]
          rw [ih j (by simpa using hi)]

theorem sum_zipWith_add (c w : List Int) (h : c.length = w.length) :
    (List.zipWith (· + ·) c w).sum = c.sum + w.sum := by
  induction c generalizing w with
  | nil => cases w <;> simp_all
  | cons a t ih =>
      cases w with
      | nil => simp at h
      | cons b u =>
          have := ih u (by simpa using h)
          simp [this]; ring

theorem getD_zipWith_add (c w : List Int) (i : Nat) (hc : i < c.length)
    (hw : i < w.length) :
    (List.zipWith (· + ·) c w).getD i 0 = c.getD i 0 + w.getD i 0 := by
  induction c generalizing w i with
  | nil => simp at hc
  | cons a t ih =>
      cases w with
      | nil => simp at hw
      | cons b u =>
          cases i with
          | zero => simp
          | succ j => simpa using ih u j (by simpa using hc) (by simpa using hw)

theorem sum_nonpos_int (l : List Int) (h : ∀ x ∈ l, x ≤ 0) : l.sum ≤ 0 := by
  induction l with
  | nil => simp
  | cons a t ih =>
      have ha := h a (by simp)
      have ht := ih (fun x hx => h x (by simp [hx]))
      simp only [List.sum_cons]
      omega

theorem exists_pos_getD (l : List Int) (h : 0 < l.sum) :
    ∃ i, i < l.length ∧ 0 < l.getD i 0 := by
  by_contra hc
  push_neg at hc
  have : ∀ x ∈ l, x ≤ 0 := by
    intro x hx
    obtain ⟨i, hi, rfl⟩ := List.mem_iff_getElem.mp hx
    have := hc i hi
    rwa [List.getD_eq_getElem l 0 hi] at this
  exact absurd (sum_nonpos_int l this) (by omega)

theorem range_map_getD {α β : Type} (l : List α) (d : α) (g : α → β) :
    (List.range l.length).map (fun i => g (l.getD i d)) = l.map g := by
  induction l with
  | nil => simp
  | cons a t ih =>
      simp only [List.length_cons, List.range_succ_eq_map, List.map_cons,
        List.map_map]
      refine congrArg₂ _ (by simp) ?_
      have hcomp : ((fun i => g ((a :: t).getD i d)) ∘ Nat.succ) =
          (fun i => g (t.getD i d)) := by
        funext i
        simp [List.getD_cons_succ]
      rw [hcomp, ih]

/-! ## `maxByLast` theory -/

theorem foldl_pick_mem (f : Nat → Int) (l : List Nat) (a : Nat) :
    l.foldl (fun a x => if f x < f a then a else x) a = a ∨
      l.foldl (fun a x => if f x < f a then a else x) a ∈ l := by
  induction l generalizing a with
  | nil => simp
  | cons x t ih =>
      simp only [List.foldl_cons]
      rcases ih (if f x < f a then a else x) with h | h
      · rw [h]
        by_cases hx : f x < f a
        · simp [hx]
        · simp [hx]
      · right
        simp [h]

theorem foldl_pick_ge (f : Nat → Int) (l : List Nat) (a : Nat) :
    f a ≤ f (l.foldl (fun a x => if f x < f a then a else x) a) ∧
      ∀ x ∈ l, f x ≤ f (l.foldl (fun a x => if f x < f a then a else x) a) := by
  induction l generalizing a with
  | nil => simp
  | cons x t ih =>
      simp only [List.foldl_cons]
      obtain ⟨h1, h2⟩ := ih (if f x < f a then a else x)
      have hax : f a ≤ f (if f x < f a then a else x) ∧
          f x ≤ f (if f x < f a then a else x) := by
        by_cases hx : f x < f a <;> simp [hx] <;> omega
      refine ⟨le_trans hax.1 h1, ?_⟩
      intro y hy
      rcases List.mem_cons.mp hy with rfl | hy
      · exact le_trans hax.2 h1
      · exact h2 y hy

theorem maxByLast_spec (f : Nat → Int) (l : List Nat) (hl : l ≠ []) :
    ∃ s, maxByLast f l = some s ∧ s ∈ l ∧ ∀ i ∈ l, f i ≤ f s := by
  cases l with
  | nil => exact absurd rfl hl
  | cons a t =>
      refine ⟨t.foldl (fun a x => if f x < f a then a else x) a, rfl, ?_, ?_⟩
      · rcases foldl_pick_mem f t a with h | h
        · rw [h]; simp
        · simp [h]
      · intro i hi
        obtain ⟨h1, h2⟩ := foldl_pick_ge f t a
        rcases List.mem_cons.mp hi with rfl | hi
        · exact h1
        · exact h2 i hi

theorem maxByLast_congr (f g : Nat → Int) (l : List Nat)
    (h : ∀ i ∈ l, f i = g i) : maxByLast f l = maxByLast g l := by
  cases l with
  | nil => rfl
  | cons a t =>
      simp only [maxByLast, Option.some.injEq]
      have key : ∀ (t' : List Nat) (a' : Nat), f a' = g a' → (∀ i ∈ t', f i = g i) →
          t'.foldl (fun a x => if f x < f a then a else x) a' =
            t'.foldl (fun a x => if g x < g a then a else x) a' := by
        intro t'
        induction t' with
        | nil => intro a' _ _; rfl
        | cons x u ih =>
            intro a' ha hu
            simp only [List.foldl_cons]
            have hx := hu x (by simp)
            rw [hx, ha]
            refine ih _ ?_ (fun i hi => hu i (by simp [hi]))
            by_cases hc : g x < g a' <;> simp [hc, ha, hx]
      exact key t a (h a (by simp)) (fun i hi => h i (by simp [hi]))

/-! ## `availableIndices` lemmas -/

theorem mem_availableIndices {ks : List UnifiedApiKey} {i : Nat}
    (h : i ∈ availableIndices ks) :
    i < ks.length ∧ (getKey ks i).is_available = true := by
  unfold availableIndices at h
  obtain ⟨pr, hpr, rfl⟩ := List.mem_map.mp h
  have hmem := List.mem_filter.mp hpr
  obtain ⟨p1, p2⟩ := pr
  obtain ⟨hlt, heq⟩ := List.mem_enum hmem.1
  refine ⟨hlt, ?_⟩
  have : getKey ks p1 = p2 := by
    rw [getKey, List.getD_eq_getElem ks dfltKey hlt, ← heq]
  rw [this]
  exact hmem.2

theorem map_getKey_availableIndices (ks : List UnifiedApiKey) :
    (availableIndices ks).map (getKey ks) = ks.filter (fun k => k.is_available) := by
  unfold availableIndices
  rw [List.map_map]
  have step1 : (ks.enum.filter (fun p => p.2.is_available)).map (getKey ks ∘ Prod.fst) =
      (ks.enum.filter (fun p => p.2.is_available)).map Prod.snd := by
    refine List.map_congr_left ?_
    intro pr hpr
    have hmem := (List.mem_filter.mp hpr).1
    obtain ⟨p1, p2⟩ := pr
    obtain ⟨hlt, heq⟩ := List.mem_enum hmem
    simp only [Function.comp]
    rw [getKey, List.getD_eq_getElem ks dfltKey hlt, ← heq]
  rw [step1]
  have step2 : ks.enum.filter (fun p => p.2.is_available) =
      ks.enum.filter ((fun k => k.is_available) ∘ Prod.snd) := rfl
  rw [step2, ← List.filter_map, List.enum_map_snd]

theorem availableIndices_all (ks : List UnifiedApiKey)
    (h : ∀ k ∈ ks, k.is_available = true) :
    availableIndices ks = List.range ks.length := by
  unfold availableIndices
  have : ks.enum.filter (fun p => p.2.is_available) = ks.enum := by
    rw [List.filter_eq_self]
    intro pr hpr
    obtain ⟨p1, p2⟩ := pr
    obtain ⟨hlt, heq⟩ := List.mem_enum hpr
    exact h p2 (heq ▸ List.getElem_mem hlt)
  rw [this, List.enum_map_fst]

/-! ## Selection-step lemmas -/

theorem is_available_addCurrent (k : UnifiedApiKey) :
    (addCurrent k).is_available = k.is_available := rfl

theorem is_available_setCurrent (k : UnifiedApiKey) (c : Int) :
    (setCurrent k c).is_available = k.is_available := rfl

theorem eff_addCurrent (k : UnifiedApiKey) :
    (addCurrent k).scheduling_state.effective_weight =
      k.scheduling_state.effective_weight := rfl

theorem eff_setCurrent (k : UnifiedApiKey) (c : Int) :
    (setCurrent k c).scheduling_state.effective_weight =
      k.scheduling_state.effective_weight := rfl

theorem sum_map_ite_add {α : Type} (p : α → Bool) (g h : α → Int) (l : List α) :
    (l.map (fun k => if p k then g k + h k else g k)).sum =
      (l.map g).sum + ((l.filter p).map h).sum := by
  induction l with
  | nil => simp
  | cons a t ih =>
      by_cases hp : p a
      · rw [List.filter_cons_of_pos hp]
        simp only [List.map_cons, List.sum_cons, if_pos hp]
        rw [ih]
        ring
      · rw [List.filter_cons_of_neg (by simpa using hp)]
        simp only [List.map_cons, List.sum_cons, if_neg hp]
        rw [ih]
        ring

theorem totAvailable_eq_filter (ks : List UnifiedApiKey) :
    totAvailable ks =
      ((ks.filter (fun k => k.is_available)).map
        (fun k => k.scheduling_state.effective_weight)).sum := by
  unfold totAvailable
  rw [← map_getKey_availableIndices, List.map_map]
  exact congrArg List.sum (List.map_congr_left (fun i _ => rfl))

theorem length_bumpAvailable (ks : List UnifiedApiKey) :
    (bumpAvailable ks).length = ks.length := by
  simp [bumpAvailable]

theorem cwSum_bumpAvailable (ks : List UnifiedApiKey) :
    cwSum (bumpAvailable ks) = cwSum ks + totAvailable ks := by
  unfold cwSum bumpAvailable
  rw [List.map_map]
  have hfun : ((fun k => k.scheduling_state.current_weight) ∘
      fun k => if k.is_available then addCurrent k else k) =
      (fun k : UnifiedApiKey => if k.is_available then
        k.scheduling_state.current_weight + k.scheduling_state.effective_weight
      else k.scheduling_state.current_weight) := by
    funext k
    by_cases hk : k.is_available <;> simp [hk, addCurrent]
  rw [hfun, sum_map_ite_add, totAvailable_eq_filter]

theorem select_result (ks : List UnifiedApiKey) :
    (select_key_with_smooth_wrr ks).2 = ks ∨
      ∃ s, s < ks.length ∧ (getKey ks s).is_available = true ∧
        (select_key_with_smooth_wrr ks).2 =
          (bumpAvailable ks).set s
            (setCurrent (getKey (bumpAvailable ks) s)
              ((getKey (bumpAvailable ks) s).scheduling_state.current_weight -
                totAvailable ks)) := by
  unfold select_key_with_smooth_wrr
  by_cases h1 : (availableIndices ks).isEmpty
  · simp [h1]
  · simp only [h1, Bool.false_eq_true, if_false]
    by_cases h2 : totAvailable ks ≤ 0
    · simp [h2]
    · simp only [h2, if_false]
      have hne : availableIndices ks ≠ [] := by
        intro hc
        rw [hc] at h1
        exact h1 rfl
      obtain ⟨s, hs, hmem, _⟩ := maxByLast_spec
        (fun i => (getKey (bumpAvailable ks) i).scheduling_state.current_weight)
        (availableIndices ks) hne
      rw [hs]
      right
      obtain ⟨hlt, hav⟩ := mem_availableIndices hmem
      exact ⟨s, hlt, hav, rfl⟩

theorem cwSum_select (ks : List UnifiedApiKey) :
    cwSum (select_key_with_smooth_wrr ks).2 = cwSum ks := by
  rcases select_result ks with h | ⟨s, hlt, _, h⟩
  · rw [h]
  · rw [h]
    have hlen : s < (bumpAvailable ks).length := by
      rw [length_bumpAvailable]; exact hlt
    have hmap : cwSum ((bumpAvailable ks).set s
        (setCurrent (getKey (bumpAvailable ks) s)
          ((getKey (bumpAvailable ks) s).scheduling_state.current_weight -
            totAvailable ks))) =
        (((bumpAvailable ks).map (fun k => k.scheduling_state.current_weight)).set s
          ((getKey (bumpAvailable ks) s).scheduling_state.current_weight -
            totAvailable ks)).sum := by
      unfold cwSum
      rw [List.map_set]
      rfl
    rw [hmap, sum_set_int _ s (by simpa using hlen)]
    clear hmap
    have hgd : ((bumpAvailable ks).map
        (fun k => k.scheduling_state.current_weight)).getD s 0 =
        (getKey (bumpAvailable ks) s).scheduling_state.current_weight := by
      exact getD_map_of_lt _ _ s hlen 0 dfltKey
    rw [hgd]
    have hb := cwSum_bumpAvailable ks
    unfold cwSum at hb ⊢
    omega

theorem cw_updateFirst (p : UnifiedApiKey → Bool) (f : UnifiedApiKey → UnifiedApiKey)
    (hf : ∀ x, (f x).scheduling_state.current_weight =
      x.scheduling_state.current_weight) (l : List UnifiedApiKey) :
    cwSum (updateFirst p f l) = cwSum l := by
  induction l with
  | nil => rfl
  | cons a t ih =>
      unfold updateFirst
      by_cases hp : p a
      · simp [hp, cwSum, hf a]
      · simp only [hp, Bool.false_eq_true, if_false]
        simp only [cwSum, List.map_cons, List.sum_cons] at ih ⊢
        omega

theorem cw_refreshKey (now : Int) (k : UnifiedApiKey) :
    ((refreshKey now k).1).scheduling_state.current_weight =
      k.scheduling_state.current_weight := by
  unfold refreshKey
  split <;>
    simp [UnifiedApiKey.mark_success, UnifiedApiKey.reset_rate_limit,
      UnifiedApiKey.should_reset_rate_limit] <;>
    split <;> simp

theorem cwSum_refresh (now : Int) (ks : List UnifiedApiKey) :
    cwSum (update_keys_availability now ks).1 = cwSum ks := by
  unfold update_keys_availability cwSum
  rw [List.map_map, List.map_map]
  congr 1
  refine List.map_congr_left ?_
  intro k _
  exact cw_refreshKey now k

theorem cwSum_new (keys : List ApiKey) :
    cwSum (UnifiedKeyManager.new keys).keys = 0 := by
  unfold UnifiedKeyManager.new cwSum
  rw [List.map_map]
  have : ((fun k => k.scheduling_state.current_weight) ∘ UnifiedApiKey.from_api_key) =
      (fun _ : ApiKey => (0 : Int)) := by
    funext a
    rfl
  rw [this]
  induction keys with
  | nil => rfl
  | cons a t ih => simpa using ih

/-- The scheduler-accumulator sum is zero in every reachable state: every
mutating operation of the manager preserves it, and construction starts it
at zero. -/
theorem cwSum_reachable {m : UnifiedKeyManager} (h : Reachable m) :
    cwSum m.keys = 0 := by
  induction h with
  | init keys => exact cwSum_new keys
  | @select now m _ ih =>
      unfold UnifiedKeyManager.get_next_key
      rcases hsel : select_key_with_smooth_wrr (update_keys_availability now m.keys).1
        with ⟨sel, ks1⟩
      have hks1 : cwSum ks1 = 0 := by
        have hs := cwSum_select (update_keys_availability now m.keys).1
        rw [hsel] at hs
        rw [hs, cwSum_refresh, ih]
      cases sel with
      | none => simpa [hsel] using hks1
      | some pair =>
          obtain ⟨idx, api⟩ := pair
          simp only [hsel]
          rw [cw_updateFirst _ UnifiedApiKey.increment_requests (fun x => rfl)]
          exact hks1
  | @fail key_id m _ ih =>
      unfold UnifiedKeyManager.mark_key_failed
      rcases hf : m.keys.find? (fun k => decide (k.id = key_id)) with _ | k
      · simpa [hf] using ih
      · simp only [hf]
        rw [cw_updateFirst _ UnifiedApiKey.mark_failed (fun x => rfl)]
        exact ih
  | @success key_id m _ ih =>
      unfold UnifiedKeyManager.mark_key_success
      rcases hf : m.keys.find? (fun k => decide (k.id = key_id)) with _ | k
      · simpa [hf] using ih
      · simp only [hf]
        rw [cw_updateFirst _ UnifiedApiKey.mark_success (fun x => rfl)]
        exact ih
  | @reweight key_id w m _ ih =>
      unfold UnifiedKeyManager.update_key_weight
      rcases hf : m.keys.find? (fun k => decide (k.id = key_id)) with _ | k
      · simpa [hf] using ih
      · simp only [hf]
        rw [cw_updateFirst _ (UnifiedApiKey.update_weight w) (fun x => rfl)]
        exact ih

/-! ## Health-invariant machinery (inactive implies threshold reached) -/

/-- The per-key health invariant: a deactivated key has accumulated at
least the failure threshold. -/
def healthInv (k : UnifiedApiKey) : Prop :=
  k.runtime_state.is_active = false → 3 ≤ k.runtime_state.failure_count

theorem healthInv_mark_failed (k : UnifiedApiKey) (h : healthInv k) :
    healthInv k.mark_failed := by
  unfold healthInv at h ⊢
  simp only [UnifiedApiKey.mark_failed]
  by_cases h3 : 3 ≤ k.runtime_state.failure_count + 1
  · simp [h3]
  · simp only [if_neg h3]
    intro ha
    have := h ha
    omega

theorem healthInv_mark_success (k : UnifiedApiKey) : healthInv k.mark_success := by
  unfold healthInv UnifiedApiKey.mark_success
  simp

theorem healthInv_refreshKey (now : Int) (k : UnifiedApiKey) (h : healthInv k) :
    healthInv (refreshKey now k).1 := by
  simp only [refreshKey]
  split <;> split
  · exact healthInv_mark_success _
  · exact h
  · exact healthInv_mark_success _
  · exact h

theorem active_refreshKey (now : Int) (k : UnifiedApiKey) (h : healthInv k) :
    ((refreshKey now k).1).runtime_state.is_active = k.runtime_state.is_active := by
  simp only [refreshKey]
  split <;> rename_i hreset <;> split <;>
    first
      | rfl
      | · rename_i hcond
          exfalso
          simp only [UnifiedApiKey.reset_rate_limit, Bool.and_eq_true,
            Bool.not_eq_true', decide_eq_true_eq] at hcond
          have := h hcond.1.1
          have hfc := hcond.1.2
          omega

theorem healthInv_updateFirst (p : UnifiedApiKey → Bool)
    (f : UnifiedApiKey → UnifiedApiKey) (hf : ∀ x, healthInv x → healthInv (f x))
    (l : List UnifiedApiKey) (h : ∀ k ∈ l, healthInv k) :
    ∀ k ∈ updateFirst p f l, healthInv k := by
  induction l with
  | nil => simp [updateFirst]
  | cons a t ih =>
      unfold updateFirst
      by_cases hp : p a
      · simp only [hp, if_pos]
        intro k hk
        rcases List.mem_cons.mp hk with rfl | hk
        · exact hf a (h a (by simp))
        · exact h k (by simp [hk])
      · simp only [hp, Bool.false_eq_true, if_false]
        intro k hk
        rcases List.mem_cons.mp hk with rfl | hk
        · exact h k (by simp)
        · exact ih (fun j hj => h j (by simp [hj])) k hk

theorem healthInv_select (ks : List UnifiedApiKey) (h : ∀ k ∈ ks, healthInv k) :
    ∀ k ∈ (select_key_with_smooth_wrr ks).2, healthInv k := by
  rcases select_result ks with hres | ⟨s, hlt, _, hres⟩
  · rw [hres]; exact h
  · rw [hres]
    have hbump : ∀ k ∈ bumpAvailable ks, healthInv k := by
      intro k hk
      obtain ⟨j, hj, rfl⟩ := List.mem_map.mp hk
      have := h j hj
      by_cases hja : j.is_available <;> simp only [hja, if_pos, Bool.false_eq_true,
        if_false] <;> exact this
    intro k hk
    rcases List.mem_or_eq_of_mem_set hk with hk' | rfl
    · exact hbump k hk'
    · have hg : getKey (bumpAvailable ks) s ∈ bumpAvailable ks := by
        have hlen : s < (bumpAvailable ks).length := by
          rw [length_bumpAvailable]; exact hlt
        rw [getKey, List.getD_eq_getElem _ _ hlen]
        exact List.getElem_mem hlen
      exact hbump (getKey (bumpAvailable ks) s) hg

/-- Every reachable-from-fresh state satisfies the per-key health
invariant. -/
theorem healthInv_reachableFresh {m : UnifiedKeyManager} (h : ReachableFresh m) :
    ∀ k ∈ m.keys, healthInv k := by
  induction h with
  | init keys hfresh =>
      intro k hk
      obtain ⟨a, ha, rfl⟩ := List.mem_map.mp hk
      intro hact
      exact absurd hact (by simp [UnifiedApiKey.from_api_key, (hfresh a ha).1])
  | @select now m _ ih =>
      unfold UnifiedKeyManager.get_next_key
      rcases hsel : select_key_with_smooth_wrr (update_keys_availability now m.keys).1
        with ⟨sel, ks1⟩
      have hks1 : ∀ k ∈ ks1, healthInv k := by
        have hrefresh : ∀ k ∈ (update_keys_availability now m.keys).1, healthInv k := by
          intro k hk
          obtain ⟨j, hj, rfl⟩ := List.mem_map.mp hk
          obtain ⟨j', hj', rfl⟩ := List.mem_map.mp hj
          exact healthInv_refreshKey now j' (ih j' hj')
        have := healthInv_select (update_keys_availability now m.keys).1 hrefresh
        rwa [hsel] at this
      cases sel with
      | none => simpa [hsel] using hks1
      | some pair =>
          obtain ⟨idx, api⟩ := pair
          simp only [hsel]
          exact healthInv_updateFirst _ UnifiedApiKey.increment_requests
            (fun x hx => hx) ks1 hks1
  | @fail key_id m _ ih =>
      unfold UnifiedKeyManager.mark_key_failed
      rcases hf : m.keys.find? (fun k => decide (k.id = key_id)) with _ | k
      · simpa [hf] using ih
      · simp only [hf]
        exact healthInv_updateFirst _ UnifiedApiKey.mark_failed
          healthInv_mark_failed m.keys ih
  | @success key_id m _ ih =>
      unfold UnifiedKeyManager.mark_key_success
      rcases hf : m.keys.find? (fun k => decide (k.id = key_id)) with _ | k
      · simpa [hf] using ih
      · simp only [hf]
        exact healthInv_updateFirst _ UnifiedApiKey.mark_success
          (fun x _ => healthInv_mark_success x) m.keys ih
  | @reweight key_id w m _ ih =>
      unfold UnifiedKeyManager.update_key_weight
      rcases hf : m.keys.find? (fun k => decide (k.id = key_id)) with _ | k
      · simpa [hf] using ih
      · simp only [hf]
        exact healthInv_updateFirst _ (UnifiedApiKey.update_weight w)
          (fun x hx => hx) m.keys ih

/-! ## The all-available bridge: the embedded selection computes the pure
WRR step -/

theorem effOf_bumpAvailable (ks : List UnifiedApiKey) :
    effOf (bumpAvailable ks) = effOf ks := by
  unfold effOf bumpAvailable
  rw [List.map_map]
  refine List.map_congr_left ?_
  intro k _
  by_cases hk : k.is_available <;> simp [hk, addCurrent]

theorem cwOf_bumpAvailable_all (ks : List UnifiedApiKey)
    (hav : ∀ k ∈ ks, k.is_available = true) :
    cwOf (bumpAvailable ks) = wrrD (effOf ks) (cwOf ks) := by
  unfold cwOf bumpAvailable wrrD effOf
  rw [List.map_map, List.zipWith_map (· + ·)
    (fun k : UnifiedApiKey => k.scheduling_state.current_weight)
    (fun k : UnifiedApiKey => k.scheduling_state.effective_weight) ks ks,
    List.zipWith_same]
  refine List.map_congr_left ?_
  intro k hk
  simp [hav k hk, addCurrent]

theorem select_allAvail (ks : List UnifiedApiKey)
    (hav : ∀ k ∈ ks, k.is_available = true)
    (htot : 0 < (effOf ks).sum) :
    (select_key_with_smooth_wrr ks).1.map Prod.fst =
        some (wrrSelIdx (effOf ks) (cwOf ks)) ∧
      cwOf (select_key_with_smooth_wrr ks).2 = wrrNext (effOf ks) (cwOf ks) ∧
      effOf (select_key_with_smooth_wrr ks).2 = effOf ks ∧
      (∀ k ∈ (select_key_with_smooth_wrr ks).2, k.is_available = true) ∧
      (select_key_with_smooth_wrr ks).2.length = ks.length := by
  have hn : ks ≠ [] := by
    intro hc
    rw [hc] at htot
    simp [effOf] at htot
  have hlen0 : 0 < ks.length := List.length_pos.mpr hn
  have havail : availableIndices ks = List.range ks.length := availableIndices_all ks hav
  have hne : availableIndices ks ≠ [] := by
    rw [havail]
    intro hc
    rw [List.range_eq_nil] at hc
    omega
  have htot' : totAvailable ks = (effOf ks).sum := by
    unfold totAvailable
    rw [havail]
    have := range_map_getD ks dfltKey
      (fun k => k.scheduling_state.effective_weight)
    exact congrArg List.sum this
  have g1 : (availableIndices ks).isEmpty = false := by
    cases hq : availableIndices ks with
    | nil => exact absurd hq hne
    | cons a t => rfl
  have g2 : ¬ totAvailable ks ≤ 0 := by
    rw [htot']
    omega
  have hlcw : (cwOf ks).length = ks.length := by simp [cwOf]
  obtain ⟨s, hs, hsmem, hsmax⟩ := maxByLast_spec
    (fun i => (getKey (bumpAvailable ks) i).scheduling_state.current_weight)
    (availableIndices ks) hne
  have hslt : s < ks.length := (mem_availableIndices hsmem).1
  have hsltb : s < (bumpAvailable ks).length := by
    rw [length_bumpAvailable]; exact hslt
  have hcongr : maxByLast
      (fun i => (getKey (bumpAvailable ks) i).scheduling_state.current_weight)
      (availableIndices ks) =
      maxByLast (fun i => (wrrD (effOf ks) (cwOf ks)).getD i 0)
        (List.range (cwOf ks).length) := by
    rw [havail, hlcw]
    apply maxByLast_congr
    intro i hi
    have hi' : i < ks.length := List.mem_range.mp hi
    have h1 : (getKey (bumpAvailable ks) i).scheduling_state.current_weight =
        (cwOf (bumpAvailable ks)).getD i 0 := by
      exact (getD_map_of_lt
        (fun k : UnifiedApiKey => k.scheduling_state.current_weight)
        (bumpAvailable ks) i (by rwa [length_bumpAvailable]) 0 dfltKey).symm
    rw [h1, cwOf_bumpAvailable_all ks hav]
  have hsel_eq : wrrSelIdx (effOf ks) (cwOf ks) = s := by
    unfold wrrSelIdx
    rw [← hcongr, hs]
    rfl
  have hgd : (getKey (bumpAvailable ks) s).scheduling_state.current_weight =
      (wrrD (effOf ks) (cwOf ks)).getD s 0 := by
    rw [← cwOf_bumpAvailable_all ks hav]
    exact (getD_map_of_lt
      (fun k : UnifiedApiKey => k.scheduling_state.current_weight)
      (bumpAvailable ks) s hsltb 0 dfltKey).symm
  have hgeff : (getKey (bumpAvailable ks) s).scheduling_state.effective_weight =
      (effOf ks).getD s 0 := by
    rw [← effOf_bumpAvailable ks]
    exact (getD_map_of_lt
      (fun k : UnifiedApiKey => k.scheduling_state.effective_weight)
      (bumpAvailable ks) s hsltb 0 dfltKey).symm
  unfold select_key_with_smooth_wrr
  simp only [g1, Bool.false_eq_true, if_false, if_neg g2, hs]
  refine ⟨by simp [hsel_eq], ?_, ?_, ?_, ?_⟩
  · unfold cwOf
    rw [List.map_set]
    show (cwOf (bumpAvailable ks)).set s
      ((getKey (bumpAvailable ks) s).scheduling_state.current_weight -
        totAvailable ks) = wrrNext (effOf ks) (cwOf ks)
    rw [cwOf_bumpAvailable_all ks hav, hgd, htot']
    unfold wrrNext
    rw [hsel_eq]
  · unfold effOf
    rw [List.map_set]
    show (effOf (bumpAvailable ks)).set s
      ((setCurrent (getKey (bumpAvailable ks) s)
        ((getKey (bumpAvailable ks) s).scheduling_state.current_weight -
          totAvailable ks)).scheduling_state.effective_weight) = effOf ks
    rw [effOf_bumpAvailable ks]
    have : (setCurrent (getKey (bumpAvailable ks) s)
        ((getKey (bumpAvailable ks) s).scheduling_state.current_weight -
          totAvailable ks)).scheduling_state.effective_weight =
        (effOf ks).getD s 0 := by
      rw [eff_setCurrent]
      exact hgeff
    rw [this]
    exact set_getD_self (effOf ks) s (by simpa [effOf] using hslt) 0
  · intro k hk
    have hbump : ∀ j ∈ bumpAvailable ks, j.is_available = true := by
      intro j hj
      obtain ⟨j', hj', rfl⟩ := List.mem_map.mp hj
      have hj'av := hav j' hj'
      rw [if_pos hj'av, is_available_addCurrent]
      exact hj'av
    rcases List.mem_or_eq_of_mem_set hk with hk' | rfl
    · exact hbump k hk'
    · rw [is_available_setCurrent]
      refine hbump (getKey (bumpAvailable ks) s) ?_
      rw [getKey, List.getD_eq_getElem _ _ hsltb]
      exact List.getElem_mem hsltb
  · rw [List.length_set, length_bumpAvailable]

theorem selectRun_allAvail (n : Nat) : ∀ (ks : List UnifiedApiKey),
    (∀ k ∈ ks, k.is_available = true) → 0 < (effOf ks).sum →
    (selectRun ks n).1 = (wrrTrace (effOf ks) (cwOf ks) n).map some := by
  induction n with
  | zero => intro ks _ _; rfl
  | succ n ih =>
      intro ks hav htot
      obtain ⟨h1, h2, h3, h4, _⟩ := select_allAvail ks hav htot
      show (select_key_with_smooth_wrr ks).1.map Prod.fst ::
          (selectRun (select_key_with_smooth_wrr ks).2 n).1 =
        (wrrSelIdx (effOf ks) (cwOf ks) ::
          wrrTrace (effOf ks) (wrrNext (effOf ks) (cwOf ks)) n).map some
      rw [List.map_cons, h1]
      refine congrArg _ ?_
      rw [ih (select_key_with_smooth_wrr ks).2 h4 (by rw [h3]; exact htot), h3, h2]

theorem selectTrace_allAvail (n : Nat) (ks : List UnifiedApiKey)
    (hav : ∀ k ∈ ks, k.is_available = true) (htot : 0 < (effOf ks).sum) :
    selectTrace ks n = wrrTrace (effOf ks) (cwOf ks) n := by
  unfold selectTrace
  rw [selectRun_allAvail n ks hav htot]
  induction wrrTrace (effOf ks) (cwOf ks) n with
  | nil => rfl
  | cons a t iht => simp [List.filterMap_cons, iht]

/-! ## Arithmetic of the pure smooth-WRR step -/

theorem length_wrrD (w c : List Int) (h : c.length = w.length) :
    (wrrD w c).length = c.length := by
  simp [wrrD, h]

theorem length_wrrNext (w c : List Int) (h : c.length = w.length) :
    (wrrNext w c).length = c.length := by
  simp only [wrrNext]
  rw [List.length_set, length_wrrD w c h]

theorem wrrSelIdx_spec (w c : List Int) (hn : 0 < c.length) :
    wrrSelIdx w c < c.length ∧
      ∀ i < c.length, (wrrD w c).getD i 0 ≤ (wrrD w c).getD (wrrSelIdx w c) 0 := by
  have hne : List.range c.length ≠ [] := by
    intro hc
    rw [List.range_eq_nil] at hc
    omega
  obtain ⟨s, hs, hsmem, hsmax⟩ := maxByLast_spec
    (fun i => (wrrD w c).getD i 0) (List.range c.length) hne
  have : wrrSelIdx w c = s := by
    unfold wrrSelIdx
    rw [hs]
    rfl
  rw [this]
  exact ⟨List.mem_range.mp hsmem, fun i hi => hsmax i (List.mem_range.mpr hi)⟩

theorem wrr_max_pos (w c : List Int) (hlen : c.length = w.length)
    (hsum : c.sum = 0) (hpos : 0 < w.sum) :
    0 < (wrrD w c).getD (wrrSelIdx w c) 0 := by
  have hd : (wrrD w c).sum = w.sum := by
    rw [wrrD, sum_zipWith_add c w hlen, hsum]
    ring
  obtain ⟨i, hi, hpos_i⟩ := exists_pos_getD (wrrD w c) (by rw [hd]; exact hpos)
  have hi' : i < c.length := by
    rwa [length_wrrD w c hlen] at hi
  have hn : 0 < c.length := by omega
  obtain ⟨_, hmax⟩ := wrrSelIdx_spec w c hn
  exact lt_of_lt_of_le hpos_i (hmax i hi')

theorem wrrNext_sum (w c : List Int) (hlen : c.length = w.length)
    (hn : 0 < c.length) : (wrrNext w c).sum = c.sum := by
  obtain ⟨hslt, _⟩ := wrrSelIdx_spec w c hn
  have hsd : wrrSelIdx w c < (wrrD w c).length := by
    rwa [length_wrrD w c hlen]
  simp only [wrrNext]
  rw [sum_set_int _ _ hsd, wrrD, sum_zipWith_add c w hlen]
  ring

theorem wrrNext_getD (w c : List Int) (i : Nat) (hlen : c.length = w.length)
    (hi : i < c.length) (hn : 0 < c.length) :
    (wrrNext w c).getD i 0 =
      c.getD i 0 + w.getD i 0 - (if i = wrrSelIdx w c then w.sum else 0) := by
  obtain ⟨hslt, _⟩ := wrrSelIdx_spec w c hn
  have hsd : wrrSelIdx w c < (wrrD w c).length := by
    rwa [length_wrrD w c hlen]
  have hdi : (wrrD w c).getD i 0 = c.getD i 0 + w.getD i 0 :=
    getD_zipWith_add c w i hi (by omega)
  by_cases hieq : i = wrrSelIdx w c
  · subst hieq
    simp only [wrrNext]
    rw [getD_set_self_of_lt _ _ hsd, hdi]
    simp
  · simp only [wrrNext, if_neg hieq]
    rw [getD_set_ne _ _ _ (fun hc => hieq hc.symm), hdi]
    ring

theorem wrrNext_lower (w c : List Int) (hw : ∀ x ∈ w, 0 ≤ x)
    (hlen : c.length = w.length) (hsum : c.sum = 0) (hpos : 0 < w.sum)
    (hlb : ∀ i < c.length, -w.sum < c.getD i 0) :
    ∀ i < c.length, -w.sum < (wrrNext w c).getD i 0 := by
  intro i hi
  have hn : 0 < c.length := by omega
  rw [wrrNext_getD w c i hlen hi hn]
  have hwi : 0 ≤ w.getD i 0 := by
    have hiw : i < w.length := by omega
    have : w.getD i 0 ∈ w := by
      rw [List.getD_eq_getElem w 0 hiw]
      exact List.getElem_mem hiw
    exact hw _ this
  by_cases hieq : i = wrrSelIdx w c
  · rw [if_pos hieq, hieq]
    have hmax := wrr_max_pos w c hlen hsum hpos
    have hslt : wrrSelIdx w c < c.length := (wrrSelIdx_spec w c hn).1
    have hdi : (wrrD w c).getD (wrrSelIdx w c) 0 =
        c.getD (wrrSelIdx w c) 0 + w.getD (wrrSelIdx w c) 0 :=
      getD_zipWith_add c w (wrrSelIdx w c) hslt (by omega)
    rw [hdi] at hmax
    omega
  · simp only [if_neg hieq]
    have := hlb i hi
    omega

theorem wrrTrace_length (w : List Int) : ∀ (n : Nat) (c : List Int),
    (wrrTrace w c n).length = n := by
  intro n
  induction n with
  | zero => intro c; rfl
  | succ n ih => intro c; simp [wrrTrace, ih]

theorem wrrTrace_mem (w : List Int) (hpos : 0 < w.sum) : ∀ (n : Nat) (c : List Int),
    c.length = w.length → ∀ x ∈ wrrTrace w c n, x < w.length := by
  intro n
  induction n with
  | zero => intro c _ x hx; simp [wrrTrace] at hx
  | succ n ih =>
      intro c hlen x hx
      have hn : 0 < c.length := by
        by_contra hc
        have h0 : c.length = 0 := by omega
        have : w = [] := by
          have := hlen.symm.trans h0
          exact List.length_eq_zero.mp this
        rw [this] at hpos
        simp at hpos
      rcases List.mem_cons.mp hx with rfl | hx'
      · have := (wrrSelIdx_spec w c hn).1
        omega
      · exact ih (wrrNext w c) (by rw [length_wrrNext w c hlen, hlen]) x hx'

theorem wrrIter_inv (w : List Int) (hw : ∀ x ∈ w, 0 ≤ x) (hpos : 0 < w.sum) :
    ∀ (n : Nat) (c : List Int), c.length = w.length → c.sum = 0 →
      (∀ i < c.length, -w.sum < c.getD i 0) →
      (wrrIter w c n).length = w.length ∧ (wrrIter w c n).sum = 0 ∧
        ∀ i < w.length, -w.sum < (wrrIter w c n).getD i 0 := by
  intro n
  induction n with
  | zero =>
      intro c h1 h2 h3
      exact ⟨h1, h2, fun i hi => h3 i (by omega)⟩
  | succ n ih =>
      intro c h1 h2 h3
      have hn : 0 < c.length := by
        by_contra hc
        have h0 : c.length = 0 := by omega
        have hw0 : w = [] := List.length_eq_zero.mp (h1.symm.trans h0)
        rw [hw0] at hpos
        simp at hpos
      show (wrrIter w (wrrNext w c) n).length = w.length ∧ _ ∧ _
      refine ih (wrrNext w c) (by rw [length_wrrNext w c h1, h1]) ?_ ?_
      · rw [wrrNext_sum w c h1 hn, h2]
      · intro i hi
        have hi' : i < c.length := by rw [length_wrrNext w c h1] at hi; omega
        exact wrrNext_lower w c hw h1 h2 hpos h3 i hi'

theorem wrrIter_getD (w : List Int) (hw : ∀ x ∈ w, 0 ≤ x) (hpos : 0 < w.sum) :
    ∀ (n : Nat) (c : List Int), c.length = w.length → c.sum = 0 →
      ∀ i < w.length,
        (wrrIter w c n).getD i 0 =
          c.getD i 0 + n * w.getD i 0 -
            ((wrrTrace w c n).count i : Int) * w.sum := by
  intro n
  induction n with
  | zero =>
      intro c h1 h2 i hi
      simp [wrrIter, wrrTrace]
  | succ n ih =>
      intro c h1 h2 i hi
      have hn : 0 < c.length := by
        by_contra hc
        have h0 : c.length = 0 := by omega
        have hw0 : w = [] := List.length_eq_zero.mp (h1.symm.trans h0)
        rw [hw0] at hpos
        simp at hpos
      have hstep := ih (wrrNext w c) (by rw [length_wrrNext w c h1, h1])
        (by rw [wrrNext_sum w c h1 hn, h2]) i hi
      show (wrrIter w (wrrNext w c) n).getD i 0 = _
      rw [hstep, wrrNext_getD w c i h1 (by omega) hn]
      simp only [wrrTrace, List.count_cons, beq_iff_eq]
      by_cases hieq : wrrSelIdx w c = i
      · rw [if_pos hieq, if_pos hieq.symm]
        push_cast
        ring
      · rw [if_neg hieq, if_neg (fun hc => hieq hc.symm)]
        push_cast
        ring

theorem count_sum_range (tr : List Nat) (n : Nat) (h : ∀ x ∈ tr, x < n) :
    ∑ i ∈ Finset.range n, (tr.count i : Int) = tr.length := by
  induction tr with
  | nil => simp
  | cons a t ih =>
      have ha : a ∈ Finset.range n := Finset.mem_range.mpr (h a (by simp))
      have ht := ih (fun x hx => h x (by simp [hx]))
      have hsplit : ∀ i, ((a :: t).count i : Int) =
          (t.count i : Int) + (if i = a then 1 else 0) := by
        intro i
        simp only [List.count_cons, beq_iff_eq]
        by_cases hia : a = i
        · rw [if_pos hia, if_pos hia.symm]
          push_cast
          ring
        · rw [if_neg hia, if_neg (fun hc => hia hc.symm)]
          push_cast
          ring
      calc ∑ i ∈ Finset.range n, ((a :: t).count i : Int)
          = ∑ i ∈ Finset.range n,
            ((t.count i : Int) + (if i = a then 1 else 0)) := by
            exact Finset.sum_congr rfl (fun i _ => hsplit i)
        _ = (t.length : Int) + 1 := by
            rw [Finset.sum_add_distrib, ht, Finset.sum_ite_eq' (Finset.range n) a
              (fun _ => (1 : Int)), if_pos ha]
        _ = ((a :: t).length : Int) := by
            simp

theorem sum_getD_range_int (l : List Int) :
    ∑ i ∈ Finset.range l.length, l.getD i 0 = l.sum := by
  induction l with
  | nil => simp
  | cons a t ih =>
      rw [List.length_cons, Finset.sum_range_succ']
      simp only [List.getD_cons_succ, List.getD_cons_zero]
      rw [ih, List.sum_cons]
      ring

/-- The counting theorem for smooth WRR: starting from the all-zero
accumulator state, over `w.sum` consecutive selections each index `i` is
selected exactly `w i` times. -/
theorem wrr_counts (w : List Int) (hw : ∀ x ∈ w, 0 ≤ x) (hpos : 0 < w.sum) :
    ∀ i < w.length,
      ((wrrTrace w (List.replicate w.length 0) w.sum.toNat).count i : Int) =
        w.getD i 0 := by
  have hc0len : (List.replicate w.length (0 : Int)).length = w.length := by simp
  have hc0sum : (List.replicate w.length (0 : Int)).sum = 0 := by simp
  have hc0getD : ∀ i, (List.replicate w.length (0 : Int)).getD i 0 = 0 := by
    intro i
    rw [List.getD_eq_getElem?_getD]
    rcases Nat.lt_or_ge i w.length with hi | hi
    · simp [List.getElem?_replicate, hi]
    · simp [List.getElem?_replicate, Nat.not_lt.mpr hi]
  have hWnat : ((w.sum.toNat : Int)) = w.sum := Int.toNat_of_nonneg (le_of_lt hpos)
  -- upper bound on each count from the lower-bound invariant
  have hub : ∀ i < w.length,
      ((wrrTrace w (List.replicate w.length 0) w.sum.toNat).count i : Int) ≤
        w.getD i 0 := by
    intro i hi
    have hiter := wrrIter_getD w hw hpos w.sum.toNat (List.replicate w.length 0)
      hc0len hc0sum i hi
    have hinv := (wrrIter_inv w hw hpos w.sum.toNat (List.replicate w.length 0)
      hc0len hc0sum (fun j _ => by rw [hc0getD j]; omega)).2.2 i hi
    rw [hiter, hc0getD i, hWnat] at hinv
    have hfact : -w.sum < w.sum * (w.getD i 0 -
        ((wrrTrace w (List.replicate w.length 0) w.sum.toNat).count i : Int)) := by
      have : (0 : Int) + w.sum * w.getD i 0 -
          ((wrrTrace w (List.replicate w.length 0) w.sum.toNat).count i : Int) * w.sum =
          w.sum * (w.getD i 0 -
            ((wrrTrace w (List.replicate w.length 0) w.sum.toNat).count i : Int)) := by
        ring
      rwa [this] at hinv
    nlinarith [hfact]
  -- the counts and the weights have the same total
  have hsum_counts : ∑ i ∈ Finset.range w.length,
      ((wrrTrace w (List.replicate w.length 0) w.sum.toNat).count i : Int) = w.sum := by
    rw [count_sum_range _ w.length
      (wrrTrace_mem w hpos w.sum.toNat (List.replicate w.length 0) hc0len)]
    rw [wrrTrace_length]
    exact hWnat
  have hsum_w : ∑ i ∈ Finset.range w.length, w.getD i 0 = w.sum :=
    sum_getD_range_int w
  -- pointwise ≤ with equal sums forces equality
  intro i hi
  by_contra hne
  have hlt : ((wrrTrace w (List.replicate w.length 0) w.sum.toNat).count i : Int) <
      w.getD i 0 := lt_of_le_of_ne (hub i hi) hne
  have : ∑ j ∈ Finset.range w.length,
      ((wrrTrace w (List.replicate w.length 0) w.sum.toNat).count j : Int) <
      ∑ j ∈ Finset.range w.length, w.getD j 0 := by
    refine Finset.sum_lt_sum (fun j hj => hub j (Finset.mem_range.mp hj)) ?_
    exact ⟨i, Finset.mem_range.mpr hi, hlt⟩
  rw [hsum_counts, hsum_w] at this
  exact lt_irrefl _ this

/-- A zero-weight index is never selected by the pure smooth-WRR step, as
long as its accumulator is zero and the accumulators sum to zero. -/
theorem wrr_zero_weight_never (w : List Int) (i0 : Nat) (hi0 : i0 < w.length)
    (hw0 : w.getD i0 0 = 0) (hpos : 0 < w.sum) :
    ∀ (n : Nat) (c : List Int), c.length = w.length → c.sum = 0 →
      c.getD i0 0 = 0 → (wrrTrace w c n).count i0 = 0 := by
  intro n
  induction n with
  | zero => intro c _ _ _; rfl
  | succ n ih =>
      intro c h1 h2 h3
      have hn : 0 < c.length := by omega
      have hsel_ne : wrrSelIdx w c ≠ i0 := by
        intro hc
        have hmax := wrr_max_pos w c h1 h2 hpos
        rw [hc] at hmax
        have hdi : (wrrD w c).getD i0 0 = c.getD i0 0 + w.getD i0 0 :=
          getD_zipWith_add c w i0 (by omega) hi0
        rw [hdi, h3, hw0] at hmax
        omega
      have hnext : (wrrNext w c).getD i0 0 = 0 := by
        rw [wrrNext_getD w c i0 h1 (by omega) hn,
          if_neg (fun hc => hsel_ne hc.symm), h3, hw0]
        ring
      have ihnext := ih (wrrNext w c) (by rw [length_wrrNext w c h1, h1])
        (by rw [wrrNext_sum w c h1 hn, h2]) hnext
      simp only [wrrTrace, List.count_cons, beq_iff_eq, if_neg hsel_ne, ihnext]

/-! ## First-match decomposition lemmas for the manager operations -/

theorem find?_append_cons {α : Type} (p : α → Bool) (pre : List α) (k0 : α)
    (post : List α) (hpre : ∀ x ∈ pre, p x = false) (hk : p k0 = true) :
    (pre ++ k0 :: post).find? p = some k0 := by
  rw [List.find?_append]
  have h1 : pre.find? p = none := by
    rw [List.find?_eq_none]
    intro x hx
    simp [hpre x hx]
  rw [h1, List.find?_cons_of_pos _ hk]
  rfl

theorem updateFirst_append {α : Type} (p : α → Bool) (f : α → α) (pre : List α)
    (k0 : α) (post : List α) (hpre : ∀ x ∈ pre, p x = false) (hk : p k0 = true) :
    updateFirst p f (pre ++ k0 :: post) = pre ++ f k0 :: post := by
  induction pre with
  | nil => simp [updateFirst, hk]
  | cons a t ih =>
      have ha := hpre a (by simp)
      simp only [List.cons_append, updateFirst, ha, Bool.false_eq_true, if_false]
      exact congrArg (a :: ·) (ih (fun x hx => hpre x (by simp [hx])))

theorem effSum_append (pre : List UnifiedApiKey) (k : UnifiedApiKey)
    (post : List UnifiedApiKey) :
    effSum (pre ++ k :: post) =
      effSum pre + k.scheduling_state.effective_weight + effSum post := by
  simp [effSum]
  ring

theorem getD_append_cons_length {α : Type} (pre : List α) (x : α) (post : List α)
    (d : α) : (pre ++ x :: post).getD pre.length d = x := by
  rw [List.getD_append_right pre (x :: post) d pre.length (le_refl _)]
  simp

theorem mark_failed_id (k : UnifiedApiKey) : k.mark_failed.id = k.id := rfl

theorem mark_failed_weight (k : UnifiedApiKey) : k.mark_failed.weight = k.weight := rfl

theorem mark_failed_fc (k : UnifiedApiKey) :
    k.mark_failed.runtime_state.failure_count =
      k.runtime_state.failure_count + 1 := rfl

theorem mark_failed_eff (k : UnifiedApiKey) :
    k.mark_failed.scheduling_state.effective_weight =
      max 0 (k.scheduling_state.effective_weight - 1) := rfl

theorem mark_failed_inactive (k : UnifiedApiKey)
    (h : 3 ≤ k.runtime_state.failure_count + 1) :
    k.mark_failed.runtime_state.is_active = false := by
  show (if 3 ≤ k.runtime_state.failure_count + 1 then false
    else k.runtime_state.is_active) = false
  rw [if_pos h]

theorem mark_key_failed_decomp (pre post : List UnifiedApiKey)
    (k0 : UnifiedApiKey) (key_id : String)
    (hpre : ∀ x ∈ pre, x.id ≠ key_id) (hk : k0.id = key_id) :
    UnifiedKeyManager.mark_key_failed key_id
        { keys := pre ++ k0 :: post, total_weight := effSum (pre ++ k0 :: post) } =
      { keys := pre ++ k0.mark_failed :: post,
        total_weight := effSum (pre ++ k0.mark_failed :: post) } := by
  unfold UnifiedKeyManager.mark_key_failed
  have hfind : (pre ++ k0 :: post).find? (fun k => decide (k.id = key_id)) =
      some k0 :=
    find?_append_cons _ pre k0 post
      (fun x hx => decide_eq_false (hpre x hx)) (decide_eq_true hk)
  rw [hfind]
  simp only
  rw [updateFirst_append _ _ pre k0 post
    (fun x hx => decide_eq_false (hpre x hx)) (decide_eq_true hk)]
  by_cases hch : k0.scheduling_state.effective_weight ≠
      k0.mark_failed.scheduling_state.effective_weight
  · rw [if_pos hch]
  · rw [if_neg hch]
    push_neg at hch
    rw [effSum_append, effSum_append, ← hch]

theorem mark_key_success_decomp (pre post : List UnifiedApiKey)
    (k0 : UnifiedApiKey) (key_id : String)
    (hpre : ∀ x ∈ pre, x.id ≠ key_id) (hk : k0.id = key_id) :
    UnifiedKeyManager.mark_key_success key_id
        { keys := pre ++ k0 :: post, total_weight := effSum (pre ++ k0 :: post) } =
      { keys := pre ++ k0.mark_success :: post,
        total_weight := effSum (pre ++ k0.mark_success :: post) } := by
  unfold UnifiedKeyManager.mark_key_success
  have hfind : (pre ++ k0 :: post).find? (fun k => decide (k.id = key_id)) =
      some k0 :=
    find?_append_cons _ pre k0 post
      (fun x hx => decide_eq_false (hpre x hx)) (decide_eq_true hk)
  rw [hfind]
  simp only
  rw [updateFirst_append _ _ pre k0 post
    (fun x hx => decide_eq_false (hpre x hx)) (decide_eq_true hk)]
  by_cases hch : k0.scheduling_state.effective_weight ≠
      k0.mark_success.scheduling_state.effective_weight
  · rw [if_pos hch]
  · rw [if_neg hch]
    push_neg at hch
    rw [effSum_append, effSum_append, ← hch]

/-! ## Audit helper lemmas -/

theorem cleanup_noop (now : Nat) (cfg : AuditConfig)
    (recs : List WeightChangeRecord)
    (h1 : ∀ r ∈ recs, now - cfg.retention_days * (24 * 3600) < r.timestamp)
    (h2 : recs.length ≤ cfg.max_records) :
    cleanup_old_records now cfg recs = recs := by
  simp only [cleanup_old_records]
  rw [List.filter_eq_self.mpr (fun a ha => decide_eq_true (h1 a ha))]
  rw [if_neg (by omega)]

theorem cleanup_length_le (now : Nat) (cfg : AuditConfig)
    (recs : List WeightChangeRecord) :
    (cleanup_old_records now cfg recs).length ≤ cfg.max_records := by
  simp only [cleanup_old_records]
  split
  · rename_i h
    rw [List.length_drop]
    omega
  · rename_i h
    omega

theorem cleanup_ts (now : Nat) (cfg : AuditConfig) (recs : List WeightChangeRecord) :
    ∀ r ∈ cleanup_old_records now cfg recs,
      now - cfg.retention_days * (24 * 3600) < r.timestamp := by
  simp only [cleanup_old_records]
  intro r hr
  have hr' : r ∈ recs.filter
      (fun r => decide (now - cfg.retention_days * (24 * 3600) < r.timestamp)) := by
    split at hr
    · exact List.mem_of_mem_drop hr
    · exact hr
  have := (List.mem_filter.mp hr').2
  exact of_decide_eq_true this

theorem cleanup_sublist (now : Nat) (cfg : AuditConfig)
    (recs : List WeightChangeRecord) :
    (cleanup_old_records now cfg recs).Sublist recs := by
  simp only [cleanup_old_records]
  split
  · exact (List.drop_sublist _ _).trans (List.filter_sublist recs)
  · exact List.filter_sublist recs

theorem rollbackRecs_length (now : Nat) (operator snapshot_id reason desc : String) :
    ∀ (ws : List (String × Nat)) (nano : Nat),
      (rollbackRecs now nano operator snapshot_id reason desc ws).length =
        ws.length := by
  intro ws
  induction ws with
  | nil => intro nano; rfl
  | cons p rest ih =>
      intro nano
      obtain ⟨kid, wv⟩ := p
      simp [rollbackRecs, ih (nano + 1)]

theorem rollbackRecs_targets (now : Nat) (operator snapshot_id reason desc : String) :
    ∀ (ws : List (String × Nat)) (nano : Nat),
      (rollbackRecs now nano operator snapshot_id reason desc ws).map
          (fun r => r.target_key_id) = ws.map Prod.fst := by
  intro ws
  induction ws with
  | nil => intro nano; rfl
  | cons p rest ih =>
      intro nano
      obtain ⟨kid, wv⟩ := p
      simp only [rollbackRecs, List.map_cons, ih (nano + 1)]
      rfl

theorem rollbackRecs_props (now : Nat) (operator snapshot_id reason desc : String) :
    ∀ (ws : List (String × Nat)) (nano : Nat),
      ∀ r ∈ rollbackRecs now nano operator snapshot_id reason desc ws,
        r.operation_type = OperationType.Rollback ∧ r.timestamp = now ∧
          r.old_weight = 100 := by
  intro ws
  induction ws with
  | nil => intro nano r hr; simp [rollbackRecs] at hr
  | cons p rest ih =>
      intro nano r hr
      obtain ⟨kid, wv⟩ := p
      rcases List.mem_cons.mp hr with rfl | hr'
      · exact ⟨rfl, rfl, rfl⟩
      · exact ih (nano + 1) r hr'

theorem rollbackLoop_records (now : Nat) (operator snapshot_id reason desc : String)
    (hnow : 0 < now) :
    ∀ (ws : List (String × Nat)) (nano : Nat) (sys : WeightAuditSystem),
      0 < sys.config.retention_days →
      (∀ r ∈ sys.change_records,
        now - sys.config.retention_days * (24 * 3600) < r.timestamp) →
      sys.change_records.length + ws.length ≤ sys.config.max_records →
      (rollbackLoop now nano operator snapshot_id reason desc ws sys).change_records
          = sys.change_records ++
            rollbackRecs now nano operator snapshot_id reason desc ws ∧
        (rollbackLoop now nano operator snapshot_id reason desc ws sys).snapshots
          = sys.snapshots ∧
        (rollbackLoop now nano operator snapshot_id reason desc ws sys).config
          = sys.config := by
  intro ws
  induction ws with
  | nil =>
      intro nano sys _ _ _
      simp [rollbackLoop, rollbackRecs]
  | cons p rest ih =>
      intro nano sys hret hts hcap
      obtain ⟨kid, wv⟩ := p
      simp only [rollbackLoop, record_weight_change]
      have hclean : cleanup_old_records now sys.config
          (sys.change_records ++ [mkChangeRecord now nano operator
            OperationType.Rollback kid 100 wv ("回滚到快照: " ++ desc)
            ChangeSource.WebUI (some (rollbackMeta snapshot_id reason))]) =
          sys.change_records ++ [mkChangeRecord now nano operator
            OperationType.Rollback kid 100 wv ("回滚到快照: " ++ desc)
            ChangeSource.WebUI (some (rollbackMeta snapshot_id reason))] := by
        apply cleanup_noop
        · intro r hr
          rcases List.mem_append.mp hr with hr' | hr'
          · exact hts r hr'
          · have : r = mkChangeRecord now nano operator OperationType.Rollback kid
                100 wv ("回滚到快照: " ++ desc) ChangeSource.WebUI
                (some (rollbackMeta snapshot_id reason)) := by simpa using hr'
            rw [this]
            show now - sys.config.retention_days * (24 * 3600) < now
            have : 0 < sys.config.retention_days * (24 * 3600) := by positivity
            omega
        · rw [List.length_append]
          simp only [List.length_cons, List.length_nil] at hcap ⊢
          omega
      rw [hclean]
      have ihres := ih (nano + 1)
        { sys with change_records := sys.change_records ++ [mkChangeRecord now nano
            operator OperationType.Rollback kid 100 wv ("回滚到快照: " ++ desc)
            ChangeSource.WebUI (some (rollbackMeta snapshot_id reason))] }
        hret
        (by
          intro r hr
          rcases List.mem_append.mp hr with hr' | hr'
          · exact hts r hr'
          · have : r = mkChangeRecord now nano operator OperationType.Rollback kid
                100 wv ("回滚到快照: " ++ desc) ChangeSource.WebUI
                (some (rollbackMeta snapshot_id reason)) := by simpa using hr'
            rw [this]
            show now - sys.config.retention_days * (24 * 3600) < now
            have : 0 < sys.config.retention_days * (24 * 3600) := by positivity
            omega)
        (by
          simp only [List.length_append, List.length_cons, List.length_nil] at hcap ⊢
          omega)
      obtain ⟨h1, h2, h3⟩ := ihres
      refine ⟨?_, h2, h3⟩
      rw [h1]
      simp [rollbackRecs]

theorem get_snapshot_create (sys : WeightAuditSystem) (now nano : Nat)
    (weights : List (String × Nat)) (description created_by : String)
    (hfresh : ∀ s ∈ sys.snapshots, s.snapshot_id ≠ "snap_" ++ toString nano) :
    get_snapshot ("snap_" ++ toString nano)
        (create_snapshot now nano weights description created_by sys).2 =
      some { snapshot_id := "snap_" ++ toString nano
             timestamp := now
             weights := weights
             description := description
             created_by := created_by } := by
  simp only [create_snapshot, get_snapshot]
  have hpre : ∀ x ∈ sys.snapshots,
      (fun s => decide (s.snapshot_id = "snap_" ++ toString nano)) x = false :=
    fun x hx => decide_eq_false (hfresh x hx)
  have hkey : (fun s : WeightSnapshot =>
      decide (s.snapshot_id = "snap_" ++ toString nano))
      { snapshot_id := "snap_" ++ toString nano
        timestamp := now
        weights := weights
        description := description
        created_by := created_by } = true := decide_eq_true rfl
  split
  · rename_i hlong
    cases hsnaps : sys.snapshots with
    | nil =>
        rw [hsnaps] at hlong
        simp at hlong
    | cons a t =>
        rw [List.cons_append, List.eraseIdx_cons_zero]
        refine find?_append_cons _ t _ [] ?_ hkey
        intro x hx
        exact hpre x (by rw [hsnaps]; exact List.mem_cons_of_mem a hx)
  · exact find?_append_cons _ sys.snapshots _ [] hpre hkey

/-! ## Stable newest-first sort lemmas -/

theorem mem_insertDesc (r x : WeightChangeRecord) (l : List WeightChangeRecord) :
    x ∈ insertDesc r l ↔ x = r ∨ x ∈ l := by
  induction l with
  | nil => simp [insertDesc]
  | cons y ys ih =>
      unfold insertDesc
      split
      · simp [or_comm, or_assoc, or_left_comm]
      · simp only [List.mem_cons, ih]
        tauto

theorem pairwise_insertDesc (r : WeightChangeRecord) (l : List WeightChangeRecord)
    (h : l.Pairwise (fun a b => b.timestamp ≤ a.timestamp)) :
    (insertDesc r l).Pairwise (fun a b => b.timestamp ≤ a.timestamp) := by
  induction l with
  | nil => simp [insertDesc]
  | cons y ys ih =>
      unfold insertDesc
      obtain ⟨hy, hys⟩ := List.pairwise_cons.mp h
      split
      · rename_i hle
        refine List.pairwise_cons.mpr ⟨?_, h⟩
        intro z hz
        rcases List.mem_cons.mp hz with rfl | hz'
        · exact hle
        · exact le_trans (hy z hz') hle
      · rename_i hgt
        push_neg at hgt
        refine List.pairwise_cons.mpr ⟨?_, ih hys⟩
        intro z hz
        rcases (mem_insertDesc r z ys).mp hz with rfl | hz'
        · omega
        · exact hy z hz'

theorem sorted_sortByNewest (l : List WeightChangeRecord) :
    (sortByNewest l).Pairwise (fun a b => b.timestamp ≤ a.timestamp) := by
  induction l with
  | nil => simp [sortByNewest]
  | cons r rs ih => exact pairwise_insertDesc r (sortByNewest rs) ih

theorem mem_sortByNewest (x : WeightChangeRecord) (l : List WeightChangeRecord) :
    x ∈ sortByNewest l ↔ x ∈ l := by
  induction l with
  | nil => simp [sortByNewest]
  | cons r rs ih =>
      unfold sortByNewest
      rw [mem_insertDesc, ih]
      simp

/-! ## Claim theorems -/

/-- C9: in every manager state reachable from construction through
`get_next_key`, `mark_key_failed`, `mark_key_success` and
`update_key_weight`, the `current_weight` accumulators sum to zero: each
selection adds the eligible effective-weight total across the available
keys and subtracts the same total from the selected key, and no other
operation touches `current_weight`. -/
theorem C9_current_weight_sum_zero (m : UnifiedKeyManager) (h : Reachable m) :
    cwSum m.keys = 0 :=
  cwSum_reachable h

/-- Witness for C9 at a concrete reachable state: a three-key pool after
one selection and one failure mark. -/
theorem C9_witness :
    cwSum ((((UnifiedKeyManager.new [mkFreshApiKey "A" 0 1000,
        mkFreshApiKey "B" 1 1000, mkFreshApiKey "C" 5 1000]).get_next_key
          0).2.mark_key_failed "C").keys) = 0 :=
  C9_current_weight_sum_zero _
    (Reachable.fail "C" (Reachable.select 0 (Reachable.init _)))

/-- C10: starting from keys constructed active with `failure_count = 0`
(as `main.rs` builds them), every reachable state satisfies
`is_active = false → failure_count ≥ 3`; consequently the auto-recovery
branch of `update_keys_availability` (which demands an inactive key with
`failure_count < 3`) never fires, so that refresh leaves every key's
`is_active` flag unchanged and a deactivated key is reactivated only by
`mark_key_success`. -/
theorem C10_inactive_threshold (m : UnifiedKeyManager) (h : ReachableFresh m) :
    (∀ k ∈ m.keys, k.runtime_state.is_active = false →
      3 ≤ k.runtime_state.failure_count) ∧
    ∀ now, (update_keys_availability now m.keys).1.map
        (fun k => k.runtime_state.is_active) =
      m.keys.map (fun k => k.runtime_state.is_active) := by
  have hinv := healthInv_reachableFresh h
  refine ⟨hinv, ?_⟩
  intro now
  unfold update_keys_availability
  simp only [List.map_map]
  exact List.map_congr_left (fun k hk => active_refreshKey now k (hinv k hk))

/-- Witness for C10 at a concrete reachable-from-fresh state: a two-key
pool after two failure marks on `A`. -/
theorem C10_witness :
    (∀ k ∈ (((UnifiedKeyManager.new [mkFreshApiKey "A" 2 10,
          mkFreshApiKey "B" 3 10]).mark_key_failed "A").mark_key_failed
            "A").keys,
        k.runtime_state.is_active = false → 3 ≤ k.runtime_state.failure_count) ∧
      ∀ now, (update_keys_availability now
          (((UnifiedKeyManager.new [mkFreshApiKey "A" 2 10,
            mkFreshApiKey "B" 3 10]).mark_key_failed "A").mark_key_failed
              "A").keys).1.map (fun k => k.runtime_state.is_active) =
        (((UnifiedKeyManager.new [mkFreshApiKey "A" 2 10,
          mkFreshApiKey "B" 3 10]).mark_key_failed "A").mark_key_failed
            "A").keys.map (fun k => k.runtime_state.is_active) :=
  C10_inactive_threshold _
    (ReachableFresh.fail "A" (ReachableFresh.fail "A"
      (ReachableFresh.init _ (by decide))))

/-- C8: `record_weight_change` always succeeds with the new record id,
and afterwards the store holds at most `max_records` records, none at or
before the retention cutoff, and only pruning removed anything (the
resulting store is a sublist of the old store plus the appended
record). -/
theorem C8_record_then_prune (now nano : Nat) (operator : String)
    (operation_type : OperationType) (target_key_id : String)
    (old_weight new_weight : Nat) (reason : String) (source : ChangeSource)
    (metadata : Option (List (String × String))) (sys : WeightAuditSystem) :
    (record_weight_change now nano operator operation_type target_key_id
        old_weight new_weight reason source metadata sys).1 =
      Except.ok ("rec_" ++ toString nano) ∧
    (record_weight_change now nano operator operation_type target_key_id
        old_weight new_weight reason source metadata
          sys).2.change_records.length ≤ sys.config.max_records ∧
    (∀ r ∈ (record_weight_change now nano operator operation_type target_key_id
        old_weight new_weight reason source metadata sys).2.change_records,
      now - sys.config.retention_days * (24 * 3600) < r.timestamp) ∧
    ((record_weight_change now nano operator operation_type target_key_id
        old_weight new_weight reason source metadata
          sys).2.change_records).Sublist
      (sys.change_records ++ [mkChangeRecord now nano operator operation_type
        target_key_id old_weight new_weight reason source metadata]) := by
  refine ⟨rfl, ?_, ?_, ?_⟩
  · exact cleanup_length_le now sys.config
      (sys.change_records ++ [mkChangeRecord now nano operator operation_type
        target_key_id old_weight new_weight reason source metadata])
  · exact cleanup_ts now sys.config
      (sys.change_records ++ [mkChangeRecord now nano operator operation_type
        target_key_id old_weight new_weight reason source metadata])
  · exact cleanup_sublist now sys.config
      (sys.change_records ++ [mkChangeRecord now nano operator operation_type
        target_key_id old_weight new_weight reason source metadata])

/-- C5 (code bug): the change record emitted by `rollback_to_snapshot`
carries the hard-coded placeholder `old_weight = 100` — the source takes
no reference to the live pool at all — even though the audit trail itself
records the key's live weight as 250 (`auditSys1` reweighted `k1` to
250).  The source marks the value as a placeholder
(`// 占位符，实际应从系统获取`). -/
theorem C5_rollback_placeholder :
    (auditSys3.change_records.getD 1 dRec).operation_type =
        OperationType.Rollback ∧
      (auditSys3.change_records.getD 1 dRec).old_weight = 100 ∧
      (auditSys3.change_records.getD 0 dRec).new_weight = 250 ∧
      (auditSys3.change_records.getD 1 dRec).old_weight ≠
        (auditSys3.change_records.getD 0 dRec).new_weight := by
  refine ⟨?_, ?_, ?_, ?_⟩ <;> decide

/-- C1 (counterexample): the claimed smoothness clause fails on the code.
With weights 5 and 1 the first cycle of six selections is
`[0, 0, 1, 0, 0, 0]`: key 0 is selected twice (calls 1 and 2) while key 1
(quota 1) has not been selected at all, violating "never selects the same
key twice while any other eligible key has not yet reached its quota".
(The per-cycle counts 5 and 1 do hold — see `C1_cycle_counts`.) -/
theorem C1_counterexample :
    ¬ noRepeatBeforeQuota (effOf pool51) (selectTrace pool51 6) := by
  intro h
  exact absurd (h 0 1 (by decide) (by decide) (by decide) 1 (by decide)
    (by decide)) (by decide)

/-- C1 (amended): for keys with integer weights summing to `W`, all keys
available, effective weights equal to the configured weights and the
scheduler at its cycle start, `W` consecutive calls to
`select_key_with_smooth_wrr` all succeed and select key `i` exactly
`weight i` times.  The claim's smoothness clause does not hold
(`C1_counterexample`). -/
theorem C1_cycle_counts (ks : List UnifiedApiKey)
    (hav : ∀ k ∈ ks, k.is_available = true)
    (heff : ∀ k ∈ ks, k.scheduling_state.effective_weight = (k.weight : Int))
    (hcw : ∀ k ∈ ks, k.scheduling_state.current_weight = 0)
    (hpos : 0 < (effOf ks).sum) :
    (selectTrace ks (effOf ks).sum.toNat).length = (effOf ks).sum.toNat ∧
      ∀ i < ks.length,
        ((selectTrace ks (effOf ks).sum.toNat).count i : Int) =
          ((getKey ks i).weight : Int) := by
  have hw : ∀ x ∈ effOf ks, 0 ≤ x := by
    intro x hx
    obtain ⟨k, hk, rfl⟩ := List.mem_map.mp hx
    rw [heff k hk]
    exact Int.natCast_nonneg k.weight
  have hcwrep : cwOf ks = List.replicate (effOf ks).length 0 := by
    have hz : ∀ b ∈ cwOf ks, b = 0 := by
      intro b hb
      obtain ⟨k, hk, rfl⟩ := List.mem_map.mp hb
      exact hcw k hk
    rw [List.eq_replicate_of_mem hz]
    congr 1
    simp [cwOf, effOf]
  have htr := selectTrace_allAvail ((effOf ks).sum.toNat) ks hav hpos
  constructor
  · rw [htr]
    exact wrrTrace_length _ _ _
  · intro i hi
    rw [htr, hcwrep]
    rw [wrr_counts (effOf ks) hw hpos i (by simpa [effOf] using hi)]
    have hg : (effOf ks).getD i 0 =
        (getKey ks i).scheduling_state.effective_weight := by
      unfold effOf
      rw [getD_map_of_lt (fun k => k.scheduling_state.effective_weight) ks i hi 0
        dfltKey]
      rfl
    have hmem : getKey ks i ∈ ks := by
      rw [getKey, List.getD_eq_getElem _ _ hi]
      exact List.getElem_mem hi
    rw [hg, heff _ hmem]

/-- Witness for C1 at a concrete pool (weights 1 and 2, cycle length 3). -/
theorem C1_witness :
    (selectTrace poolW ((effOf poolW).sum.toNat)).length =
        (effOf poolW).sum.toNat ∧
      ((selectTrace poolW ((effOf poolW).sum.toNat)).count 0 : Int) =
        ((getKey poolW 0).weight : Int) ∧
      ((selectTrace poolW ((effOf poolW).sum.toNat)).count 1 : Int) =
        ((getKey poolW 1).weight : Int) := by
  obtain ⟨h1, h2⟩ := C1_cycle_counts poolW (by decide) (by decide) (by decide)
    (by decide)
  exact ⟨h1, h2 0 (by decide), h2 1 (by decide)⟩

/-- C2 (counterexample): a key of configured weight 0 can be returned by
`get_next_key`.  In the reachable state `poolZrun` — weights 0, 1, 5;
four selections drive key `B`'s accumulator to −2; then three failure
marks deactivate `C` — the next `get_next_key` returns key `A`, whose
configured weight is 0. -/
theorem C2_counterexample :
    Reachable poolZrun ∧
      (poolZrun.get_next_key 0).1.map ApiKey.id = some "A" ∧
      (poolZrun.get_next_key 0).1.map ApiKey.weight = some 0 := by
  refine ⟨?_, by decide, by decide⟩
  exact Reachable.fail "C" (Reachable.fail "C" (Reachable.fail "C"
    (Reachable.select 0 (Reachable.select 0 (Reachable.select 0
      (Reachable.select 0 (Reachable.init [mkFreshApiKey "A" 0 1000,
        mkFreshApiKey "B" 1 1000, mkFreshApiKey "C" 5 1000])))))))

/-- C2 (amended): as long as every key remains available and the scheduler
runs from its cycle start with healthy effective weights, a key with
configured weight 0 is never selected, over any number of selections. -/
theorem C2_weight_zero_never (ks : List UnifiedApiKey)
    (hav : ∀ k ∈ ks, k.is_available = true)
    (heff : ∀ k ∈ ks, k.scheduling_state.effective_weight = (k.weight : Int))
    (hcw : ∀ k ∈ ks, k.scheduling_state.current_weight = 0)
    (hpos : 0 < (effOf ks).sum)
    (i0 : Nat) (hi0 : i0 < ks.length) (hw0 : (getKey ks i0).weight = 0) :
    ∀ n, (selectTrace ks n).count i0 = 0 := by
  intro n
  rw [selectTrace_allAvail n ks hav hpos]
  have hmem : getKey ks i0 ∈ ks := by
    rw [getKey, List.getD_eq_getElem _ _ hi0]
    exact List.getElem_mem hi0
  have hwgetD : (effOf ks).getD i0 0 = 0 := by
    unfold effOf
    rw [getD_map_of_lt (fun k => k.scheduling_state.effective_weight) ks i0 hi0 0
      dfltKey]
    show (getKey ks i0).scheduling_state.effective_weight = 0
    rw [heff _ hmem, hw0]
    rfl
  have hcgetD : (cwOf ks).getD i0 0 = 0 := by
    unfold cwOf
    rw [getD_map_of_lt (fun k => k.scheduling_state.current_weight) ks i0 hi0 0
      dfltKey]
    exact hcw _ hmem
  have hcsum : (cwOf ks).sum = 0 := by
    have hz : ∀ b ∈ cwOf ks, b = 0 := by
      intro b hb
      obtain ⟨k, hk, rfl⟩ := List.mem_map.mp hb
      exact hcw k hk
    rw [List.eq_replicate_of_mem hz, List.sum_replicate]
    simp
  exact wrr_zero_weight_never (effOf ks) i0 (by simpa [effOf] using hi0) hwgetD
    hpos n (cwOf ks) (by simp [cwOf, effOf]) hcsum hcgetD

/-- Witness for C2: the spec's scenario — key `A` weight 0, key `B`
weight 100 — A is never selected and every one of 10 selections picks B. -/
theorem C2_witness :
    (selectTrace poolAB 10).count 0 = 0 ∧
      selectTrace poolAB 10 = List.replicate 10 1 :=
  ⟨C2_weight_zero_never poolAB (by decide) (by decide) (by decide) (by decide)
    0 (by decide) (by decide) 10, by decide⟩

/-- C3 (counterexample): three `mark_key_failed` calls on weight-100 key
`A` do deactivate it, but `total_weight` drops from 150 to 147 — by 1 per
failure — not by the key's prior effective-weight contribution of 100. -/
theorem C3_counterexample :
    (getKey pool3f.keys 0).runtime_state.is_active = false ∧
      pool3.total_weight = 150 ∧
      pool3f.total_weight = 147 ∧
      pool3f.total_weight ≠ pool3.total_weight -
        (getKey pool3.keys 0).scheduling_state.effective_weight := by
  exact ⟨by decide, by decide, by decide, by decide⟩

/-- C3 (amended): marking a healthy key failed three times (the
threshold) deactivates it and lowers `total_weight` by
`min 3 effectiveWeight` — one unit per failure, floored at zero — and a
subsequent `mark_key_success` restores `is_active`, resets the failure
count, restores `effective_weight = weight` and returns `total_weight` to
its pre-failure value. -/
theorem C3_fail_threshold (pre post : List UnifiedApiKey) (k0 : UnifiedApiKey)
    (key_id : String) (hpre : ∀ x ∈ pre, x.id ≠ key_id) (hk : k0.id = key_id)
    (heff : k0.scheduling_state.effective_weight = (k0.weight : Int))
    (m m3 m4 : UnifiedKeyManager)
    (hm : m = { keys := pre ++ (k0 :: post)
                total_weight := effSum (pre ++ k0 :: post) })
    (hm3 : m3 = ((m.mark_key_failed key_id).mark_key_failed
      key_id).mark_key_failed key_id)
    (hm4 : m4 = m3.mark_key_success key_id) :
    (getKey m3.keys pre.length).runtime_state.is_active = false ∧
      m3.total_weight = m.total_weight - min 3 (k0.weight : Int) ∧
      (getKey m4.keys pre.length).runtime_state.is_active = true ∧
      (getKey m4.keys pre.length).runtime_state.failure_count = 0 ∧
      (getKey m4.keys pre.length).scheduling_state.effective_weight =
        ((getKey m4.keys pre.length).weight : Int) ∧
      m4.total_weight = m.total_weight := by
  subst hm hm3 hm4
  have hk1 : (k0.mark_failed).id = key_id := hk
  have hk2 : (k0.mark_failed.mark_failed).id = key_id := hk
  have hk3 : (k0.mark_failed.mark_failed.mark_failed).id = key_id := hk
  rw [mark_key_failed_decomp pre post k0 key_id hpre hk,
    mark_key_failed_decomp pre post _ key_id hpre hk1,
    mark_key_failed_decomp pre post _ key_id hpre hk2,
    mark_key_success_decomp pre post _ key_id hpre hk3]
  have hw0 : (0 : Int) ≤ (k0.weight : Int) := Int.natCast_nonneg _
  refine ⟨?_, ?_, ?_, ?_, ?_, ?_⟩
  · show (getKey (pre ++ k0.mark_failed.mark_failed.mark_failed :: post)
      pre.length).runtime_state.is_active = false
    rw [getKey, getD_append_cons_length]
    exact mark_failed_inactive _ (by rw [mark_failed_fc, mark_failed_fc]; omega)
  · show effSum (pre ++ k0.mark_failed.mark_failed.mark_failed :: post) =
      effSum (pre ++ k0 :: post) - min 3 (k0.weight : Int)
    rw [effSum_append, effSum_append]
    have he3 : (k0.mark_failed.mark_failed.mark_failed).scheduling_state.effective_weight =
        max 0 (max 0 (max 0 ((k0.weight : Int) - 1) - 1) - 1) := by
      rw [mark_failed_eff, mark_failed_eff, mark_failed_eff, heff]
    rw [he3, heff]
    omega
  · show (getKey (pre ++ (k0.mark_failed.mark_failed.mark_failed).mark_success ::
      post) pre.length).runtime_state.is_active = true
    rw [getKey, getD_append_cons_length]
    rfl
  · show (getKey (pre ++ (k0.mark_failed.mark_failed.mark_failed).mark_success ::
      post) pre.length).runtime_state.failure_count = 0
    rw [getKey, getD_append_cons_length]
    rfl
  · show (getKey (pre ++ (k0.mark_failed.mark_failed.mark_failed).mark_success ::
      post) pre.length).scheduling_state.effective_weight =
      ((getKey (pre ++ (k0.mark_failed.mark_failed.mark_failed).mark_success ::
        post) pre.length).weight : Int)
    rw [getKey, getD_append_cons_length]
    rfl
  · show effSum (pre ++ (k0.mark_failed.mark_failed.mark_failed).mark_success ::
      post) = effSum (pre ++ k0 :: post)
    rw [effSum_append, effSum_append]
    have hs : ((k0.mark_failed.mark_failed.mark_failed).mark_success).scheduling_state.effective_weight =
        (k0.weight : Int) := rfl
    rw [hs, heff]

/-- Witness for C3 at the concrete pool: weight-100 key `A` next to
weight-50 key `B`. -/
theorem C3_witness :
    (getKey pool3f.keys ([] : List UnifiedApiKey).length).runtime_state.is_active
        = false ∧
      pool3f.total_weight = pool3.total_weight -
        min 3 ((UnifiedApiKey.from_api_key (mkFreshApiKey "A" 100 1000)).weight :
          Int) ∧
      (getKey (pool3f.mark_key_success "A").keys
        ([] : List UnifiedApiKey).length).runtime_state.is_active = true ∧
      (getKey (pool3f.mark_key_success "A").keys
        ([] : List UnifiedApiKey).length).runtime_state.failure_count = 0 ∧
      (getKey (pool3f.mark_key_success "A").keys
        ([] : List UnifiedApiKey).length).scheduling_state.effective_weight =
        ((getKey (pool3f.mark_key_success "A").keys
          ([] : List UnifiedApiKey).length).weight : Int) ∧
      (pool3f.mark_key_success "A").total_weight = pool3.total_weight :=
  C3_fail_threshold [] [UnifiedApiKey.from_api_key (mkFreshApiKey "B" 50 1000)]
    (UnifiedApiKey.from_api_key (mkFreshApiKey "A" 100 1000)) "A"
    (by simp) rfl rfl pool3 pool3f (pool3f.mark_key_success "A") rfl rfl rfl

/-- C6: `update_key_weight` on an absent id returns the NotFound error and
leaves the whole manager (keys and `total_weight` cache) untouched; on a
present id it returns `Ok`, sets both `weight` and `effective_weight` of
that key to the new value, and the `total_weight` cache is the recomputed
effective-weight sum of the updated pool in the same step. -/
theorem C6_update_weight (m : UnifiedKeyManager) (key_id : String) (w : Nat) :
    ((∀ k ∈ m.keys, k.id ≠ key_id) →
      m.update_key_weight key_id w =
        (Except.error ("密钥 " ++ key_id ++ " 不存在"), m)) ∧
    (∀ pre k0 post, m.keys = pre ++ k0 :: post → (∀ x ∈ pre, x.id ≠ key_id) →
      k0.id = key_id →
      m.update_key_weight key_id w =
        (Except.ok (), { keys := pre ++ (k0.update_weight w :: post)
                         total_weight :=
                           effSum (pre ++ k0.update_weight w :: post) }) ∧
      (getKey (pre ++ k0.update_weight w :: post) pre.length).weight = w ∧
      (getKey (pre ++ k0.update_weight w :: post)
        pre.length).scheduling_state.effective_weight = (w : Int)) := by
  constructor
  · intro habs
    unfold UnifiedKeyManager.update_key_weight
    have hfind : m.keys.find? (fun k => decide (k.id = key_id)) = none := by
      rw [List.find?_eq_none]
      intro x hx
      simp [habs x hx]
    rw [hfind]
  · intro pre k0 post hkeys hpre hk
    unfold UnifiedKeyManager.update_key_weight
    rw [hkeys]
    have hfind := find?_append_cons
      (fun k : UnifiedApiKey => decide (k.id = key_id)) pre k0 post
      (fun x hx => decide_eq_false (hpre x hx)) (decide_eq_true hk)
    rw [hfind]
    simp only
    rw [updateFirst_append _ _ pre k0 post
      (fun x hx => decide_eq_false (hpre x hx)) (decide_eq_true hk)]
    refine ⟨rfl, ?_, ?_⟩
    · rw [getKey, getD_append_cons_length]
      rfl
    · rw [getKey, getD_append_cons_length]
      rfl

/-- Witness for C6: reweighting `B` to 7 in the two-key pool, and asking
for the unknown id `Z`. -/
theorem C6_witness :
    pool3.update_key_weight "Z" 7 =
        (Except.error ("密钥 " ++ "Z" ++ " 不存在"), pool3) ∧
      (pool3.update_key_weight "B" 7).1 = Except.ok () ∧
      (getKey ([UnifiedApiKey.from_api_key (mkFreshApiKey "A" 100 1000)] ++
        (UnifiedApiKey.from_api_key (mkFreshApiKey "B" 50 1000)).update_weight 7 ::
          []) [UnifiedApiKey.from_api_key
            (mkFreshApiKey "A" 100 1000)].length).weight = 7 := by
  refine ⟨(C6_update_weight pool3 "Z" 7).1 (by decide), ?_, ?_⟩
  · have h := (C6_update_weight pool3 "B" 7).2
      [UnifiedApiKey.from_api_key (mkFreshApiKey "A" 100 1000)]
      (UnifiedApiKey.from_api_key (mkFreshApiKey "B" 50 1000)) [] rfl
      (by decide) rfl
    rw [h.1]
  · exact ((C6_update_weight pool3 "B" 7).2
      [UnifiedApiKey.from_api_key (mkFreshApiKey "A" 100 1000)]
      (UnifiedApiKey.from_api_key (mkFreshApiKey "B" 50 1000)) [] rfl
      (by decide) rfl).2.1

/-- C4 (counterexample): change records carry no version field at all, and
the only ordered field a rollback record receives — its timestamp, at
one-second resolution — is not strictly greater than prior records': with
the prior record and the rollback both at second 1000, the emitted
Rollback record's timestamp equals, not exceeds, the prior record's. -/
theorem C4_counterexample :
    auditSys3.change_records.map (fun r => r.timestamp) = [1000, 1000] ∧
      (auditSys3.change_records.getD 1 dRec).operation_type =
        OperationType.Rollback ∧
      ¬ (auditSys3.change_records.getD 0 dRec).timestamp <
        (auditSys3.change_records.getD 1 dRec).timestamp := by
  exact ⟨by decide, by decide, by decide⟩

/-- C4 (amended): `create_snapshot` followed by `rollback_to_snapshot` on
that snapshot returns a weight map identical to the one captured and
appends exactly one change record per captured key, in order, each with
`operation_type = Rollback` and a timestamp equal to the rollback time —
hence at least (but not strictly greater than) every prior record's under
a monotone clock; records carry no version counter.  Hypotheses: the
snapshot id is fresh, the store has room and its records are inside the
retention window, so pruning is a no-op. -/
theorem C4_snapshot_rollback (sys : WeightAuditSystem)
    (weights : List (String × Nat))
    (description created_by operator reason : String)
    (now1 nano1 now2 nano2 : Nat)
    (hfresh : ∀ s ∈ sys.snapshots, s.snapshot_id ≠ "snap_" ++ toString nano1)
    (hcap : sys.change_records.length + weights.length ≤ sys.config.max_records)
    (hret : ∀ r ∈ sys.change_records,
      now2 - sys.config.retention_days * (24 * 3600) < r.timestamp)
    (hnow : 0 < now2) (hretd : 0 < sys.config.retention_days)
    (hmono : ∀ r ∈ sys.change_records, r.timestamp ≤ now2)
    (out : Except String (List (String × Nat)) × WeightAuditSystem)
    (hout : out = rollback_to_snapshot now2 nano2 ("snap_" ++ toString nano1)
      operator reason
      (create_snapshot now1 nano1 weights description created_by sys).2) :
    out.1 = Except.ok weights ∧
      out.2.change_records = sys.change_records ++
        rollbackRecs now2 nano2 operator ("snap_" ++ toString nano1) reason
          description weights ∧
      (out.2.change_records.drop sys.change_records.length).length =
        weights.length ∧
      (out.2.change_records.drop sys.change_records.length).map
        (fun r => r.target_key_id) = weights.map Prod.fst ∧
      ∀ r ∈ out.2.change_records.drop sys.change_records.length,
        r.operation_type = OperationType.Rollback ∧ r.timestamp = now2 ∧
          ∀ r0 ∈ sys.change_records, r0.timestamp ≤ r.timestamp := by
  subst hout
  unfold rollback_to_snapshot
  rw [get_snapshot_create sys now1 nano1 weights description created_by hfresh]
  simp only
  obtain ⟨hrec, _, _⟩ := rollbackLoop_records now2 operator
    ("snap_" ++ toString nano1) reason description hnow weights nano2
    (create_snapshot now1 nano1 weights description created_by sys).2
    hretd hret hcap
  have h2 : (rollbackLoop now2 nano2 operator ("snap_" ++ toString nano1) reason
      description weights
      (create_snapshot now1 nano1 weights description created_by
        sys).2).change_records =
      sys.change_records ++ rollbackRecs now2 nano2 operator
        ("snap_" ++ toString nano1) reason description weights := hrec
  refine ⟨trivial, h2, ?_, ?_, ?_⟩
  · show ((rollbackLoop now2 nano2 operator ("snap_" ++ toString nano1) reason
      description weights (create_snapshot now1 nano1 weights description
        created_by sys).2).change_records.drop
          sys.change_records.length).length = weights.length
    rw [h2, List.drop_left]
    exact rollbackRecs_length now2 operator _ reason description weights nano2
  · show ((rollbackLoop now2 nano2 operator ("snap_" ++ toString nano1) reason
      description weights (create_snapshot now1 nano1 weights description
        created_by sys).2).change_records.drop
          sys.change_records.length).map (fun r => r.target_key_id) =
        weights.map Prod.fst
    rw [h2, List.drop_left]
    exact rollbackRecs_targets now2 operator _ reason description weights nano2
  · intro r hr
    rw [h2, List.drop_left] at hr
    obtain ⟨hop, hts, _⟩ := rollbackRecs_props now2 operator
      ("snap_" ++ toString nano1) reason description weights nano2 r hr
    exact ⟨hop, hts, fun r0 hr0 => by rw [hts]; exact hmono r0 hr0⟩

/-- Witness for C4: an empty audit store, a snapshot of `{k1 ↦ 70, k2 ↦ 30}`
taken at time 2000 and rolled back at time 2001. -/
theorem C4_witness :
    (rollback_to_snapshot 2001 9 ("snap_" ++ toString 8) "op" "why"
        (create_snapshot 2000 8 [("k1", 70), ("k2", 30)] "d" "admin"
          auditSys0).2).1 = Except.ok [("k1", 70), ("k2", 30)] ∧
      ((rollback_to_snapshot 2001 9 ("snap_" ++ toString 8) "op" "why"
        (create_snapshot 2000 8 [("k1", 70), ("k2", 30)] "d" "admin"
          auditSys0).2).2.change_records.drop
            auditSys0.change_records.length).map (fun r => r.target_key_id) =
        [("k1", 70), ("k2", 30)].map Prod.fst := by
  have h := C4_snapshot_rollback auditSys0 [("k1", 70), ("k2", 30)] "d" "admin"
    "op" "why" 2000 8 2001 9 (by decide) (by decide) (by decide) (by decide)
    (by decide) (by decide) _ rfl
  exact ⟨h.1, h.2.2.2.1⟩

/-- C7: with a `target_key_id` filter, `query_audit_records` returns only
records whose target key equals that id, sorted newest first, and its
`offset`/`limit` pagination is exactly drop-then-take over the full
(unpaginated) result of the same query. -/
theorem C7_query_pagination (sys : WeightAuditSystem) (q : AuditQuery)
    (tid : String) (htid : q.target_key_id = some tid) :
    (∀ r ∈ query_audit_records q sys, r.target_key_id = tid) ∧
      (query_audit_records q sys).Pairwise
        (fun a b => b.timestamp ≤ a.timestamp) ∧
      query_audit_records q sys =
        ((query_audit_records { q with limit := none, offset := none } sys).drop
          (q.offset.getD 0)).take
          (q.limit.getD (query_audit_records
            { q with limit := none, offset := none } sys).length) := by
  have hofs : ({ q with limit := none, offset := none } : AuditQuery).offset =
      none := rfl
  have hlim : ({ q with limit := none, offset := none } : AuditQuery).limit =
      none := rfl
  have hfull : query_audit_records { q with limit := none, offset := none } sys =
      sortByNewest (sys.change_records.filter (recordMatches q)) := by
    simp only [query_audit_records, hofs, hlim, Option.getD_none, List.drop_zero,
      List.take_length]
    rfl
  have hq : query_audit_records q sys =
      ((sortByNewest (sys.change_records.filter (recordMatches q))).drop
        (q.offset.getD 0)).take
        (q.limit.getD (sortByNewest
          (sys.change_records.filter (recordMatches q))).length) := rfl
  refine ⟨?_, ?_, ?_⟩
  · intro r hr
    rw [hq] at hr
    have hr' : r ∈ sortByNewest (sys.change_records.filter (recordMatches q)) :=
      List.mem_of_mem_drop (List.mem_of_mem_take hr)
    rw [mem_sortByNewest] at hr'
    have hm := (List.mem_filter.mp hr').2
    unfold recordMatches at hm
    rw [htid] at hm
    simp only [Bool.and_eq_true, decide_eq_true_eq] at hm
    exact hm.1.2
  · rw [hq]
    exact List.Pairwise.sublist
      ((List.take_sublist _ _).trans (List.drop_sublist _ _))
      (sorted_sortByNewest (sys.change_records.filter (recordMatches q)))
  · rw [hq, hfull]

/-- Witness for C7: ten records for key `k` with timestamps 1..10;
`limit = 3, offset = 3` returns exactly the 4th–6th newest (timestamps
7, 6, 5). -/
theorem C7_witness :
    (∀ r ∈ query_audit_records q7 sys7, r.target_key_id = "k") ∧
      (query_audit_records q7 sys7).Pairwise
        (fun a b => b.timestamp ≤ a.timestamp) ∧
      query_audit_records q7 sys7 =
        ((query_audit_records { q7 with limit := none, offset := none }
          sys7).drop (q7.offset.getD 0)).take
          (q7.limit.getD (query_audit_records
            { q7 with limit := none, offset := none } sys7).length) ∧
      query_audit_records q7 sys7 = [mkRec 7 "k", mkRec 6 "k", mkRec 5 "k"] := by
  obtain ⟨h1, h2, h3⟩ := C7_query_pagination sys7 q7 "k" rfl
  exact ⟨h1, h2, h3, by decide⟩

end GemProxy
